import Mathlib

/-!
Verification development for the linear-optics analysis core of an
accelerator-physics package (closed-orbit solver, transfer-matrix builder
and Twiss-parameter calculator, source file `pyat/at/physics.py`).

The per-element particle tracker (`at.lattice_pass`) is an external
collaborator: it is modelled as an abstract family of maps, one map of
6-dimensional phase space per reference point, carried by the `ARing`
structure below.  Machine floating-point arithmetic is idealised as exact
real arithmetic; numpy arrays of optics data are modelled as lists, and
fixed-shape numpy vectors and matrices as functions out of `Fin n`.
`math.sqrt` raising `ValueError` on a negative argument is modelled by an
`Option` result.
-/

open scoped Matrix

/-- 6-dimensional phase-space vector (x, px, y, py, delta, ct). -/
abbrev V6 : Type := Fin 6 → ℝ

/-- 4-dimensional transverse phase-space vector (x, px, y, py). -/
abbrev V4 : Type := Fin 4 → ℝ

/-- 4 x 4 real matrix. -/
abbrev M4 : Type := Matrix (Fin 4) (Fin 4) ℝ

/-- 2 x 2 real matrix. -/
abbrev M2 : Type := Matrix (Fin 2) (Fin 2) ℝ

/-- Embedding of a transverse index into the 6-dimensional index range. -/
def emb46 (i : Fin 4) : Fin 6 := ⟨i.val, by omega⟩

/-- The first four (transverse) components of a 6-vector, `v[:4]` in the source. -/
def first4 (v : V6) : V4 := fun i => v (emb46 i)

/-- Rebuild a 6-vector from transverse components, a momentum deviation and ct = 0,
`numpy.append(orbit4, (dp, 0.0))` in the source. -/
def embed6 (x : V4) (dp : ℝ) : V6 :=
  fun m => if h : m.val < 4 then x ⟨m.val, h⟩ else if m.val = 4 then dp else 0

/-- Euclidean norm of a 6-vector, `numpy.linalg.norm`. -/
noncomputable def vnorm6 (v : V6) : ℝ := Real.sqrt (∑ i, v i ^ 2)

/-- Euclidean norm of a 4-vector. -/
noncomputable def vnorm4 (v : V4) : ℝ := Real.sqrt (∑ i, v i ^ 2)

/-- The lattice together with the external Tracker collaborator.
`len` is the number of elements (`len(ring)`); `trackTo k` advances a
phase-space vector from the ring entrance to reference point `k` for one
turn, so `trackTo len` is the one-turn map realised by `at.lattice_pass`
(the tracker is external to the analysis core, see the spec).  The
`keep_lattice` argument of the tracker is a performance hint with no
observable effect and is not modelled.  `sPos` — Modelled from the spec:
the cumulative longitudinal position returned by `lattice.get_s_pos`,
whose source is not part of the analysed tree. -/
structure ARing where
  len : ℕ
  trackTo : ℕ → V6 → V6
  sPos : ℕ → ℝ

/-- `STEP_SIZE` constant of `find_orbit4`. -/
def STEP_SIZE : ℝ := 1e-6

/-- `MAX_ITERATIONS` constant of `find_orbit4`. -/
def MAX_ITERATIONS : ℕ := 20

/-- `CONVERGENCE` constant of `find_orbit4`. -/
def CONVERGENCE : ℝ := 1e-12

/-- `XYDEFSTEP` module constant, the default differentiation step of `find_m44`. -/
def XYDEFSTEP : ℝ := 6.055454452393343e-6

/-- `DDP` module constant, the default momentum step for chromaticity. -/
def DDP : ℝ := 1e-8

/-- The linear solve `numpy.linalg.lstsq(a, b)` of the orbit search.  For an
invertible `a` the least-squares solution is the exact solution `a⁻¹ b`,
which is what `Matrix.inv` yields here.  For a singular `a` numpy returns
the minimum-norm least-squares solution while `Matrix.inv` returns the zero
matrix; the two agree in the one singular situation exercised below
(`a = 0`, where the minimum-norm minimiser of `‖0·x - b‖` is `x = 0`). -/
noncomputable def lstsq (a : M4) (b : V4) : V4 := a⁻¹.mulVec b

/-- State of the Newton-Raphson loop of `find_orbit4`: the current iterate
`r_in`, the norm `change` of the last correction and the iteration count. -/
structure OrbitState where
  r : V6
  change : ℝ
  itercount : ℕ

/-- Initial state of the loop: `r_in = 0` except `r_in[4] = dp`,
`change = 1`, `itercount = 0`. -/
def initOrbitState (dp : ℝ) : OrbitState :=
  { r := fun m => if m.val = 4 then dp else 0, change := 1, itercount := 0 }

/-- One body execution of the `while` loop of `find_orbit4`: track the
reference particle and its four probes displaced by `STEP_SIZE` along each
transverse axis (the columns of `in_mat = r_in + delta_matrix`), build the
finite-difference Jacobian `j4`, solve `(j4 - I) Δ = f(r) - r` by least
squares and step `r_in ← r_in - Δ` (transverse components only). -/
noncomputable def orbitStep (T : V6 → V6) (s : OrbitState) : OrbitState :=
  let ref_out : V4 := fun i => T s.r (emb46 i)
  let j4 : M4 := Matrix.of fun i j =>
    (T (fun m => s.r m + if m = emb46 j then STEP_SIZE else 0) (emb46 i) - ref_out i) / STEP_SIZE
  let a : M4 := j4 - 1
  let b : V4 := fun i => ref_out i - s.r (emb46 i)
  let b_over_a := lstsq a b
  let r_next : V6 := fun m => s.r m - (if h : m.val < 4 then b_over_a ⟨m.val, h⟩ else 0)
  { r := r_next
    change := vnorm6 (fun m => r_next m - s.r m)
    itercount := s.itercount + 1 }

/-- The `while (change > CONVERGENCE) and itercount < MAX_ITERATIONS` loop,
written with a fuel argument.  Each body execution increments `itercount`,
so with fuel `MAX_ITERATIONS` and `itercount` starting at 0 the loop always
exits through its own guard, never through exhausted fuel (proved below). -/
noncomputable def orbitLoop (T : V6 → V6) : ℕ → OrbitState → OrbitState
  | 0, s => s
  | n + 1, s =>
    if s.change > CONVERGENCE ∧ s.itercount < MAX_ITERATIONS then
      orbitLoop T n (orbitStep T s)
    else s

/-- `find_orbit4(ring, dp, refpts)`: run the Newton-Raphson loop on the
one-turn map, then report the transverse fixed-point estimate and, by one
final tracking call, the orbit at every requested reference point. -/
noncomputable def findOrbit4 (ring : ARing) (dp : ℝ) (refpts : List ℕ) : V4 × List V4 :=
  let sF := orbitLoop (ring.trackTo ring.len) MAX_ITERATIONS (initOrbitState dp)
  (first4 sF.r, refpts.map fun k => first4 (ring.trackTo k sF.r))

/-- Conversion of reference points to a canonical index array.  Modelled
from the spec: `lattice.uint32_refpts` lives in `lattice.py`, which is not
part of the analysed tree; for an in-range list of indices, as used
throughout, the conversion is the identity. -/
def uint32_refpts (refpts : List ℕ) (n : ℕ) : List ℕ := refpts

/-- The reference-point normalisation at the top of `find_m44` (lines
126-133): a missing `refpts` becomes `[len(ring)]`; a list not ending in
`len(ring)` gets `len(ring)` appended **in place** (observable to the
caller, whose list object is one element longer afterwards); an empty list
raises `IndexError` at `refpts[-1]`, modelled by `none`.  The boolean is
`last_requested`. -/
def normRefpts (refpts : Option (List ℕ)) (n : ℕ) : Option (List ℕ × Bool) :=
  match refpts with
  | none => some ([n], false)
  | some [] => none
  | some l => if l.getLast! ≠ n then some (l ++ [n], false) else some (l, true)

/-- The matrix of plus and minus deltas of `find_m44`: `dmat[i, i] = 0.5 *
XYStep` and `dmat[i, i + 4] = -0.5 * XYStep` for the four transverse axes. -/
def dmat (h : ℝ) : Fin 6 → Fin 8 → ℝ := fun i j =>
  if i.val < 4 ∧ j.val = i.val then 0.5 * h
  else if i.val < 4 ∧ j.val = i.val + 4 then -(0.5 * h)
  else 0

/-- The plus-probe index `j` and minus-probe index `j + 4` of the 8-column
batch, as indices into `Fin 8`. -/
def plusIdx (j : Fin 4) : Fin 8 := ⟨j.val, by omega⟩

/-- Minus-probe column index `j + 4`. -/
def minusIdx (j : Fin 4) : Fin 8 := ⟨j.val + 4, by omega⟩

/-- The per-reference-point transfer matrix extracted by `find_m44`:
`mstack[:, :, k] = (tmat3[:, :4, k] - tmat3[:, 4:8, k]) / XYStep`, where
column `j` comes from the pair of probes displaced along transverse axis
`j` and row `i` is the transverse component `i` of the tracked output. -/
noncomputable def m44At (ring : ARing) (o4 : V4) (dp h : ℝ) (k : ℕ) : M4 :=
  let orbit6 : V6 := embed6 o4 dp
  let in_mat : Fin 8 → V6 := fun j m => orbit6 m + dmat h m j
  Matrix.of fun i j =>
    (ring.trackTo k (in_mat (plusIdx j)) (emb46 i) -
      ring.trackTo k (in_mat (minusIdx j)) (emb46 i)) / h

/-- `find_m44(ring, dp, refpts, orbit4, XYStep)`: normalise the reference
points (possibly appending `len(ring)` to the caller's list), find the
closed orbit unless one was supplied, track the 8-probe batch once and
return the one-turn matrix (the per-point matrix at the final element),
the stack of per-point matrices trimmed to the caller's request, and the
reference-point list as left visible to the caller.  `none` models the
`IndexError` raised on an empty `refpts` list. -/
noncomputable def findM44 (ring : ARing) (dp : ℝ) (refpts : Option (List ℕ))
    (orbit4 : Option V4) (XYStep : ℝ) : Option (M4 × List M4 × List ℕ) :=
  match normRefpts refpts ring.len with
  | none => none
  | some (rp, last_requested) =>
    let o4 : V4 := match orbit4 with
      | some o => o
      | none => (findOrbit4 ring dp []).1
    let mstackFull : List M4 := rp.map (m44At ring o4 dp XYStep)
    let m44 : M4 := m44At ring o4 dp XYStep rp.getLast!
    let mstack := if last_requested then mstackFull else mstackFull.dropLast
    some (m44, mstack, rp)

/-- The boolean-to-float value of one entry of `numpy.append([0], dp) < 0`
after the implicit cast in `cumsum(jumps) * pi`. -/
noncomputable def jIndicator (d : ℝ) : ℝ := if d < 0 then 1 else 0

/-- `betatron_phase_unwrap(m)`: whenever the raw per-step difference is
negative, add pi to that point and, through the cumulative sum, to all
later points: `m + numpy.cumsum(numpy.append([0], numpy.diff(m)) < 0) * pi`. -/
noncomputable def betatron_phase_unwrap (m : List ℝ) : List ℝ :=
  let dp := List.zipWith (fun prev x => x - prev) m m.tail
  let jumps := (((0 : ℝ) :: dp).map jIndicator)
  let cums := (List.scanl (· + ·) 0 jumps).tail
  List.zipWith (fun x c => x + c * Real.pi) m cums

/-- The argument of the square root in the Twiss decomposition of a 2 x 2
one-turn block: `-mat[0, 1] * mat[1, 0] - (mat[0, 0] - mat[1, 1]) ** 2 / 4`. -/
noncomputable def sqrtArg (mat : M2) : ℝ :=
  -(mat 0 1) * mat 1 0 - (mat 0 0 - mat 1 1) ^ 2 / 4

/-- The inner function `twiss22(mat, ms)` of `get_twiss`: decompose the
one-turn 2 x 2 block `mat` into the seed values `sin_mu_end`, `alpha0`,
`beta0`, then transport alpha, beta and the unwrapped phase advance mu to
every per-point 2 x 2 block in `ms`.  `math.sqrt` raises `ValueError` on a
negative argument, modelled by `none`; the numpy float divisions raise
nothing (division by zero yields non-finite values in the source and the
junk value 0 here), so every run with a nonnegative square-root argument
returns a result. -/
noncomputable def twiss22 (mat : M2) (ms : List M2) : Option (List ℝ × List ℝ × List ℝ) :=
  if sqrtArg mat < 0 then none
  else
    let sin_mu_end : ℝ := Real.sign (mat 0 1) * Real.sqrt (sqrtArg mat)
    let alpha0 : ℝ := (mat 0 0 - mat 1 1) / 2 / sin_mu_end
    let beta0 : ℝ := mat 0 1 / sin_mu_end
    let alpha : List ℝ := ms.map fun m =>
      -((m 0 0 * beta0 - m 0 1 * alpha0) * (m 1 0 * beta0 - m 1 1 * alpha0) +
          m 0 1 * m 1 1) / beta0
    let beta : List ℝ := ms.map fun m =>
      ((m 0 0 * beta0 - m 0 1 * alpha0) ^ 2 + (m 0 1) ^ 2) / beta0
    let mu : List ℝ := betatron_phase_unwrap
      (ms.map fun m => Real.arctan (m 0 1 / (m 0 0 * beta0 - m 0 1 * alpha0)))
    some (alpha, beta, mu)

/-- The x-plane 2 x 2 sub-block `m[:2, :2]` of a 4 x 4 matrix. -/
def xblk (m : M4) : M2 := Matrix.of fun i j => m ⟨i.val, by omega⟩ ⟨j.val, by omega⟩

/-- The y-plane 2 x 2 sub-block `m[2:, 2:]` of a 4 x 4 matrix. -/
def yblk (m : M4) : M2 := Matrix.of fun i j => m ⟨i.val + 2, by omega⟩ ⟨j.val + 2, by omega⟩

/-- One row of the structured Twiss array (`TWISS_DTYPE`).  The
`dispersion` field is filled with `numpy.NaN` unless chromaticity is
requested; IEEE NaN has no exact-real counterpart and is modelled as
`none`. -/
structure TwissRec where
  idx : ℕ
  s_pos : ℝ
  closed_orbit : V4
  dispersion : Option V4
  alpha : Fin 2 → ℝ
  beta : Fin 2 → ℝ
  mu : Fin 2 → ℝ
  m44 : M4

instance : Inhabited TwissRec :=
  ⟨{ idx := 0, s_pos := 0, closed_orbit := fun _ => 0, dispersion := none,
     alpha := fun _ => 0, beta := fun _ => 0, mu := fun _ => 0, m44 := 0 }⟩

/-- The chromaticity-free body of `get_twiss` (everything before the
`if get_chrom:` branch): normalise the reference points to end at the
lattice end, find the orbit and the transfer matrices, run `twiss22` on
both transverse planes, and assemble the record array and the tune
`(mx[-1], my[-1]) / (2 * pi)`.  An empty reference-point list raises
`IndexError` at `refpts[-1]`, modelled by `none`; a `ValueError` escaping
`twiss22` also yields `none` (no partial result). -/
noncomputable def getTwissCore (ring : ARing) (dp : ℝ) (refpts : List ℕ) :
    Option (List TwissRec × (Fin 2 → ℝ)) :=
  match uint32_refpts refpts ring.len with
  | [] => none
  | r0 :: rtl =>
    let rl : List ℕ := r0 :: rtl
    let nrefs := rl.length
    let rp := if rl.getLast! ≠ ring.len then rl ++ [ring.len] else rl
    let ob := findOrbit4 ring dp rp
    match findM44 ring dp (some rp) (some ob.1) XYDEFSTEP with
    | none => none
    | some (m44v, mstack, _) =>
      match twiss22 (xblk m44v) (mstack.map xblk) with
      | none => none
      | some (ax, bx, mx) =>
        match twiss22 (yblk m44v) (mstack.map yblk) with
        | none => none
        | some (ay, bY, my) =>
          let tune : Fin 2 → ℝ := ![mx.getLast! / (2 * Real.pi), my.getLast! / (2 * Real.pi)]
          let recs : List TwissRec := (List.range nrefs).map fun k =>
            { idx := rl.getD k 0
              s_pos := ring.sPos (rl.getD k 0)
              closed_orbit := ob.2.getD k (fun _ => 0)
              dispersion := none
              alpha := ![ax.getD k 0, ay.getD k 0]
              beta := ![bx.getD k 0, bY.getD k 0]
              mu := ![mx.getD k 0, my.getD k 0]
              m44 := mstack.getD k 0 }
          some (recs, tune)

/-- `get_twiss(ring, dp, refpts, get_chrom, ddp)`.  When `get_chrom` is
set, the source re-invokes itself once at `dp + ddp` with the same
(original) reference points and `get_chrom` left at its default `False` —
so the nesting is exactly one level deep; that single nested invocation is
`getTwissCore` here.  Chromaticity is `(tuneb - tune) / ddp` and each
dispersion is `(orbitb - orbit) / ddp` componentwise. -/
noncomputable def getTwiss (ring : ARing) (dp : ℝ) (refpts : List ℕ)
    (get_chrom : Bool) (ddp : ℝ) :
    Option (List TwissRec × (Fin 2 → ℝ) × Option (Fin 2 → ℝ)) :=
  match getTwissCore ring dp refpts with
  | none => none
  | some (tw, tune) =>
    if get_chrom then
      match getTwissCore ring (dp + ddp) refpts with
      | none => none
      | some (twb, tuneb) =>
        some (List.zipWith
                (fun a b =>
                  { a with
                    dispersion := some (fun i => (b.closed_orbit i - a.closed_orbit i) / ddp) })
                tw twb,
              tune,
              some fun i => (tuneb i - tune i) / ddp)
    else some (tw, tune, none)

/-- The least-squares solve maps a zero right-hand side to the zero step. -/
lemma lstsq_zero_right (a : M4) : lstsq a (fun _ => 0) = fun _ => 0 := by
  have h0 : (fun _ => (0 : ℝ)) = (0 : V4) := rfl
  simp [lstsq, h0]

/-- The least-squares solve with the zero matrix yields the zero step, as
numpy's minimum-norm solution does there. -/
lemma lstsq_zero_matrix (b : V4) : lstsq 0 b = fun _ => 0 := by
  have hdet : ¬IsUnit (0 : M4).det := by
    rw [Matrix.det_zero ⟨0⟩]
    simp
  funext i
  simp [lstsq, Matrix.nonsing_inv_apply_not_isUnit _ hdet]

/-- The norm of the zero 6-vector is zero. -/
lemma vnorm6_zero : vnorm6 (fun _ => 0) = 0 := by
  simp [vnorm6]

/-- The norm of the zero 4-vector is zero. -/
lemma vnorm4_zero : vnorm4 (fun _ => 0) = 0 := by
  simp [vnorm4]

/-- A state whose loop guard fails is returned unchanged, for any fuel. -/
lemma orbitLoop_guard_false (T : V6 → V6) (n : ℕ) (s : OrbitState)
    (h : ¬(s.change > CONVERGENCE ∧ s.itercount < MAX_ITERATIONS)) :
    orbitLoop T n s = s := by
  cases n with
  | zero => rfl
  | succ n => simp [orbitLoop, h]

/-- The loop stops as soon as the correction norm is at or below the
tolerance. -/
lemma orbitLoop_stop (T : V6 → V6) (n : ℕ) (s : OrbitState)
    (h : s.change ≤ CONVERGENCE) : orbitLoop T n s = s := by
  refine orbitLoop_guard_false T n s ?_
  rintro ⟨h1, -⟩
  exact absurd h (not_le.mpr h1)

/-- The loop never pushes the iteration count past `MAX_ITERATIONS`. -/
lemma orbitLoop_itercount (T : V6 → V6) :
    ∀ (n : ℕ) (s : OrbitState), s.itercount ≤ MAX_ITERATIONS →
      (orbitLoop T n s).itercount ≤ MAX_ITERATIONS := by
  intro n
  induction n with
  | zero => intro s hs; exact hs
  | succ n ih =>
    intro s hs
    by_cases h : s.change > CONVERGENCE ∧ s.itercount < MAX_ITERATIONS
    · rw [orbitLoop, if_pos h]
      exact ih _ (by simpa [orbitStep] using h.2)
    · rw [orbitLoop, if_neg h]
      exact hs

/-- With fuel at least `MAX_ITERATIONS - itercount` the loop result does not
depend on the fuel: the guard, not the fuel, terminates the iteration. -/
lemma orbitLoop_fuel (T : V6 → V6) :
    ∀ (n m : ℕ) (s : OrbitState),
      MAX_ITERATIONS - s.itercount ≤ n → MAX_ITERATIONS - s.itercount ≤ m →
      orbitLoop T n s = orbitLoop T m s := by
  intro n
  induction n with
  | zero =>
    intro m s hn _
    have hguard : ¬(s.change > CONVERGENCE ∧ s.itercount < MAX_ITERATIONS) := by
      rintro ⟨-, h2⟩
      omega
    rw [orbitLoop_guard_false T 0 s hguard, orbitLoop_guard_false T m s hguard]
  | succ n ih =>
    intro m s hn hm
    by_cases h : s.change > CONVERGENCE ∧ s.itercount < MAX_ITERATIONS
    · have hm1 : ∃ m', m = m' + 1 := by
        cases m with
        | zero => exfalso; omega
        | succ m' => exact ⟨m', rfl⟩
      obtain ⟨m', rfl⟩ := hm1
      rw [orbitLoop, if_pos h, orbitLoop, if_pos h]
      have hit : (orbitStep T s).itercount = s.itercount + 1 := rfl
      exact ih m' _ (by omega) (by omega)
    · rw [orbitLoop_guard_false T _ s h, orbitLoop_guard_false T m s h]

/-- The loop body leaves the momentum deviation and time components (indices
4 and 5) of the iterate untouched. -/
lemma orbitStep_r_high (T : V6 → V6) (s : OrbitState) (m : Fin 6) (hm : ¬ m.val < 4) :
    (orbitStep T s).r m = s.r m := by
  simp [orbitStep, hm]

/-- If the tracked output agrees with the iterate on the transverse
components, the loop body fixes the iterate and reports a zero correction. -/
lemma orbitStep_fixed (T : V6 → V6) (s : OrbitState)
    (h : first4 (T s.r) = first4 s.r) :
    orbitStep T s = { r := s.r, change := 0, itercount := s.itercount + 1 } := by
  have hb : (fun i => T s.r (emb46 i) - s.r (emb46 i)) = fun _ => (0 : ℝ) := by
    funext i
    have := congrFun h i
    simp only [first4] at this
    simp [this]
  simp only [orbitStep, hb, lstsq_zero_right]
  have hr : (fun m : Fin 6 => s.r m - (if _ : m.val < 4 then (0 : ℝ) else 0)) = s.r := by
    funext m
    by_cases hlt : m.val < 4 <;> simp [hlt]
  have hchange : (fun m : Fin 6 =>
      (s.r m - (if _ : m.val < 4 then (0 : ℝ) else 0)) - s.r m) = fun _ => (0 : ℝ) := by
    funext m
    by_cases hlt : m.val < 4 <;> simp [hlt]
  rw [hchange, hr, vnorm6_zero]

/-- On a tracker that already fixes the transverse part of the initial
iterate, the whole loop performs exactly one iteration and returns the
initial iterate with a zero correction norm. -/
lemma orbitLoop_fixed_init (T : V6 → V6) (dp : ℝ)
    (h : first4 (T (initOrbitState dp).r) = first4 (initOrbitState dp).r) :
    orbitLoop T MAX_ITERATIONS (initOrbitState dp) =
      { r := (initOrbitState dp).r, change := 0, itercount := 1 } := by
  have hguard : (initOrbitState dp).change > CONVERGENCE ∧
      (initOrbitState dp).itercount < MAX_ITERATIONS := by
    constructor
    · show (1 : ℝ) > CONVERGENCE
      norm_num [CONVERGENCE]
    · show 0 < MAX_ITERATIONS
      norm_num [MAX_ITERATIONS]
  show orbitLoop T MAX_ITERATIONS (initOrbitState dp) = _
  rw [show MAX_ITERATIONS = 19 + 1 from rfl, orbitLoop, if_pos hguard,
    orbitStep_fixed T _ h]
  exact orbitLoop_stop T 19 _ (by norm_num [CONVERGENCE])

/-- The last element of a list with one element appended. -/
lemma getLastBang_concat (l : List ℕ) (n : ℕ) : (l ++ [n]).getLast! = n :=
  List.getLast!_of_getLast? (List.getLast?_concat l)

/-- If the tracked one-turn image of the initial iterate already agrees with
it transversely, `find_orbit4` returns that iterate and the orbit at each
reference point is read off by one tracking call from it. -/
lemma findOrbit4_fixed (ring : ARing) (dp : ℝ) (rp : List ℕ)
    (h : first4 (ring.trackTo ring.len (initOrbitState dp).r) =
      first4 (initOrbitState dp).r) :
    findOrbit4 ring dp rp =
      (first4 (initOrbitState dp).r,
        rp.map fun k => first4 (ring.trackTo k (initOrbitState dp).r)) := by
  unfold findOrbit4
  rw [orbitLoop_fixed_init _ dp h]

/-- Unfolding of `find_m44` when the caller requests reference points ending
at the lattice end: nothing is appended and nothing is trimmed. -/
lemma findM44_last (ring : ARing) (dp h : ℝ) (o : V4) (l : List ℕ)
    (hne : l ≠ []) (hlast : l.getLast! = ring.len) :
    findM44 ring dp (some l) (some o) h =
      some (m44At ring o dp h ring.len, l.map (m44At ring o dp h), l) := by
  have hn : normRefpts (some l) ring.len = some (l, true) := by
    cases l with
    | nil => exact absurd rfl hne
    | cons a tl =>
      simp only [normRefpts]
      rw [if_neg (by simp [hlast])]
  unfold findM44
  rw [hn]
  simp [hlast]

/-- Unfolding of `find_m44` when the caller requests reference points not
ending at the lattice end: the end is appended to the caller's list (in
place, in the source) and the trailing matrix is trimmed from the stack. -/
lemma findM44_append (ring : ARing) (dp h : ℝ) (o : V4) (l : List ℕ)
    (hne : l ≠ []) (hlast : l.getLast! ≠ ring.len) :
    findM44 ring dp (some l) (some o) h =
      some (m44At ring o dp h ring.len, l.map (m44At ring o dp h), l ++ [ring.len]) := by
  have hn : normRefpts (some l) ring.len = some (l ++ [ring.len], false) := by
    cases l with
    | nil => exact absurd rfl hne
    | cons a tl =>
      simp only [normRefpts]
      rw [if_pos (by simpa using hlast)]
  unfold findM44
  rw [hn]
  simp only [getLastBang_concat, Bool.false_eq_true, if_false, List.map_append,
    List.map_cons, List.map_nil, List.dropLast_concat]

/-- Unfolding of `find_m44` with no requested reference points: the stack is
empty and only the one-turn matrix is produced. -/
lemma findM44_none (ring : ARing) (dp h : ℝ) (o : V4) :
    findM44 ring dp none (some o) h =
      some (m44At ring o dp h ring.len, [], [ring.len]) := by
  unfold findM44 normRefpts
  simp [show ([ring.len] : List ℕ).getLast! = ring.len from rfl]

/-- An affine one-turn map `v ↦ L v + c`, the exact-linear-optics model of a
tracked turn. -/
noncomputable def affineTrack (L : Matrix (Fin 6) (Fin 6) ℝ) (c : V6) : V6 → V6 :=
  fun v i => L.mulVec v i + c i

/-- The transverse 4 x 4 block `L[:4, :4]` of a 6 x 6 matrix. -/
def blk4 (L : Matrix (Fin 6) (Fin 6) ℝ) : M4 :=
  Matrix.of fun i j => L (emb46 i) (emb46 j)

/-- A 6 x 6 matrix with uncoupled transverse 2 x 2 blocks `X` (x plane) and
`Y` (y plane) and identity action on the momentum and time coordinates. -/
def blk6 (X Y : M2) : Matrix (Fin 6) (Fin 6) ℝ :=
  !![X 0 0, X 0 1, 0, 0, 0, 0;
     X 1 0, X 1 1, 0, 0, 0, 0;
     0, 0, Y 0 0, Y 0 1, 0, 0;
     0, 0, Y 1 0, Y 1 1, 0, 0;
     0, 0, 0, 0, 1, 0;
     0, 0, 0, 0, 0, 1]

/-- Plus-probe column of the delta matrix. -/
lemma dmat_plus (h : ℝ) (j : Fin 4) (m : Fin 6) :
    dmat h m (plusIdx j) = if m = emb46 j then 0.5 * h else 0 := by
  by_cases hm : m = emb46 j
  · subst hm
    have : (emb46 j).val < 4 ∧ (plusIdx j).val = (emb46 j).val := by
      constructor
      · exact j.isLt
      · rfl
    simp [dmat, this]
  · have h1 : ¬(m.val < 4 ∧ (plusIdx j).val = m.val) := by
      rintro ⟨hlt, heq⟩
      exact hm (Fin.ext (by simpa [plusIdx, emb46] using heq.symm))
    have h2 : ¬(m.val < 4 ∧ (plusIdx j).val = m.val + 4) := by
      rintro ⟨hlt, heq⟩
      have := j.isLt
      simp only [plusIdx] at heq
      omega
    simp [dmat, h1, h2, hm]

/-- Minus-probe column of the delta matrix. -/
lemma dmat_minus (h : ℝ) (j : Fin 4) (m : Fin 6) :
    dmat h m (minusIdx j) = if m = emb46 j then -(0.5 * h) else 0 := by
  by_cases hm : m = emb46 j
  · subst hm
    have h1 : ¬((emb46 j).val < 4 ∧ (minusIdx j).val = (emb46 j).val) := by
      rintro ⟨-, heq⟩
      have := j.isLt
      simp only [minusIdx, emb46] at heq
      omega
    have h2 : (emb46 j).val < 4 ∧ (minusIdx j).val = (emb46 j).val + 4 := by
      refine ⟨j.isLt, rfl⟩
    simp [dmat, h1, h2]
  · have h1 : ¬(m.val < 4 ∧ (minusIdx j).val = m.val) := by
      rintro ⟨hlt, heq⟩
      have := j.isLt
      simp only [minusIdx] at heq
      omega
    have h2 : ¬(m.val < 4 ∧ (minusIdx j).val = m.val + 4) := by
      rintro ⟨hlt, heq⟩
      have heq2 : (minusIdx j).val = j.val + 4 := rfl
      exact hm (Fin.ext (by simp only [emb46]; omega))
    simp [dmat, h1, h2, hm]

/-- On an affine tracked turn the symmetric finite difference of `find_m44`
recovers the transverse block of the linear part exactly. -/
lemma m44At_affine (ring : ARing) (L : Matrix (Fin 6) (Fin 6) ℝ) (c : V6) (k : ℕ)
    (hT : ring.trackTo k = affineTrack L c) (o : V4) (dp h : ℝ) (hne : h ≠ 0) :
    m44At ring o dp h k = blk4 L := by
  ext i j
  simp only [m44At, blk4, Matrix.of_apply, hT, affineTrack, Matrix.mulVec,
    Matrix.dotProduct]
  rw [div_eq_iff hne]
  have hsum : ∀ (p q : Fin 8),
      ((∑ m, L (emb46 i) m * (embed6 o dp m + dmat h m p)) + c (emb46 i)) -
        ((∑ m, L (emb46 i) m * (embed6 o dp m + dmat h m q)) + c (emb46 i)) =
        ∑ m, L (emb46 i) m * (dmat h m p - dmat h m q) := by
    intro p q
    calc ((∑ m, L (emb46 i) m * (embed6 o dp m + dmat h m p)) + c (emb46 i)) -
          ((∑ m, L (emb46 i) m * (embed6 o dp m + dmat h m q)) + c (emb46 i))
        = (∑ m, L (emb46 i) m * (embed6 o dp m + dmat h m p)) -
            (∑ m, L (emb46 i) m * (embed6 o dp m + dmat h m q)) := by ring
      _ = ∑ m, (L (emb46 i) m * (embed6 o dp m + dmat h m p) -
            L (emb46 i) m * (embed6 o dp m + dmat h m q)) := by
          rw [Finset.sum_sub_distrib]
      _ = ∑ m, L (emb46 i) m * (dmat h m p - dmat h m q) :=
          Finset.sum_congr rfl fun m _ => by ring
  rw [hsum]
  have hd : ∀ m : Fin 6, dmat h m (plusIdx j) - dmat h m (minusIdx j) =
      if m = emb46 j then h else 0 := by
    intro m
    rw [dmat_plus, dmat_minus]
    by_cases hm : m = emb46 j
    · simp only [hm, if_true]
      ring
    · simp [hm]
  calc (∑ m, L (emb46 i) m * (dmat h m (plusIdx j) - dmat h m (minusIdx j)))
      = ∑ m, if m = emb46 j then L (emb46 i) m * h else 0 := by
        refine Finset.sum_congr rfl fun m _ => ?_
        rw [hd]
        by_cases hm : m = emb46 j <;> simp [hm]
    _ = L (emb46 i) (emb46 j) * h := by
        rw [Finset.sum_ite_eq']
        simp

/-- The standard 4 x 4 symplectic form for coordinates ordered
(x, px, y, py). -/
def J4 : M4 := !![0, 1, 0, 0; -1, 0, 0, 0; 0, 0, 0, 1; 0, 0, -1, 0]

/-- The Pfaffian of a 4 x 4 matrix read off its upper triangle. -/
noncomputable def pf4 (A : M4) : ℝ :=
  A 0 1 * A 2 3 - A 0 2 * A 1 3 + A 0 3 * A 1 2

/-- Cofactor expansion of a 4 x 4 determinant along the first row. -/
lemma det_four (A : M4) : A.det =
    A 0 0 * (A 1 1 * (A 2 2 * A 3 3 - A 2 3 * A 3 2)
      - A 1 2 * (A 2 1 * A 3 3 - A 2 3 * A 3 1)
      + A 1 3 * (A 2 1 * A 3 2 - A 2 2 * A 3 1))
    - A 0 1 * (A 1 0 * (A 2 2 * A 3 3 - A 2 3 * A 3 2)
      - A 1 2 * (A 2 0 * A 3 3 - A 2 3 * A 3 0)
      + A 1 3 * (A 2 0 * A 3 2 - A 2 2 * A 3 0))
    + A 0 2 * (A 1 0 * (A 2 1 * A 3 3 - A 2 3 * A 3 1)
      - A 1 1 * (A 2 0 * A 3 3 - A 2 3 * A 3 0)
      + A 1 3 * (A 2 0 * A 3 1 - A 2 1 * A 3 0))
    - A 0 3 * (A 1 0 * (A 2 1 * A 3 2 - A 2 2 * A 3 1)
      - A 1 1 * (A 2 0 * A 3 2 - A 2 2 * A 3 0)
      + A 1 2 * (A 2 0 * A 3 1 - A 2 1 * A 3 0)) := by
  rw [Matrix.det_succ_row_zero]
  simp [Fin.sum_univ_succ, Matrix.det_fin_three, Matrix.submatrix_apply, Fin.succAbove]
  simp only [show (Fin.succ 2 : Fin 4) = 3 from rfl, show (Fin.castSucc 2 : Fin 4) = 2 from rfl,
    show ((1 : Fin 4) < (3 : Fin 4)) = True from by decide, if_true]
  ring

set_option maxHeartbeats 2000000 in
/-- Pfaffian transformation law at the symplectic form: a congruence by any
matrix scales the Pfaffian of `J4` by the determinant. -/
lemma pf4_conj (A : M4) : pf4 (Aᵀ * J4 * A) = A.det := by
  rw [det_four]
  simp [pf4, Matrix.mul_apply, Fin.sum_univ_four, J4]
  ring

/-- The symplectic form has Pfaffian 1. -/
lemma pf4_J4 : pf4 J4 = 1 := by
  simp [pf4, J4]

/-- A 4 x 4 real symplectic matrix has determinant exactly 1 (not just
determinant of absolute value 1). -/
lemma det_one_of_symplectic (A : M4) (hS : Aᵀ * J4 * A = J4) : A.det = 1 := by
  have h := pf4_conj A
  rw [hS, pf4_J4] at h
  exact h.symm

/-- The constant transverse part of an affine one-turn map at fixed
momentum deviation: the image of the transverse origin. -/
noncomputable def affineOffset (M : Matrix (Fin 6) (Fin 6) ℝ) (c : V6) (dp : ℝ) : V4 :=
  fun i => M (emb46 i) 4 * dp + c (emb46 i)

/-- The exact transverse fixed point of an affine one-turn map with
invertible `A - I`, where `A` is the transverse block. -/
noncomputable def affineFix (M : Matrix (Fin 6) (Fin 6) ℝ) (c : V6) (dp : ℝ) : V4 :=
  fun i => -(((blk4 M - 1)⁻¹).mulVec (affineOffset M c dp) i)

/-- Transverse component of an affine map applied to an embedded state. -/
lemma affineTrack_emb (M : Matrix (Fin 6) (Fin 6) ℝ) (c : V6) (x : V4) (dp : ℝ)
    (i : Fin 4) :
    affineTrack M c (embed6 x dp) (emb46 i) =
      (∑ j, blk4 M i j * x j) + affineOffset M c dp i := by
  simp only [affineTrack, Matrix.mulVec, Matrix.dotProduct, affineOffset, blk4,
    Matrix.of_apply]
  rw [Fin.sum_univ_six, Fin.sum_univ_four]
  have e0 : embed6 x dp 0 = x 0 := rfl
  have e1 : embed6 x dp 1 = x 1 := rfl
  have e2 : embed6 x dp 2 = x 2 := rfl
  have e3 : embed6 x dp 3 = x 3 := rfl
  have e4 : embed6 x dp 4 = dp := rfl
  have e5 : embed6 x dp 5 = 0 := rfl
  rw [e0, e1, e2, e3, e4, e5]
  have m0 : emb46 0 = (0 : Fin 6) := rfl
  have m1 : emb46 1 = (1 : Fin 6) := rfl
  have m2 : emb46 2 = (2 : Fin 6) := rfl
  have m3 : emb46 3 = (3 : Fin 6) := rfl
  rw [m0, m1, m2, m3]
  ring

/-- The finite-difference Jacobian of the loop body is exact on an affine
map: it equals the transverse block of the linear part. -/
lemma orbitStep_jacobian_affine (M : Matrix (Fin 6) (Fin 6) ℝ) (c : V6) (r : V6) :
    (Matrix.of fun i j =>
      (affineTrack M c (fun m => r m + if m = emb46 j then STEP_SIZE else 0) (emb46 i) -
        affineTrack M c r (emb46 i)) / STEP_SIZE) = blk4 M := by
  have hstep : STEP_SIZE ≠ 0 := by norm_num [STEP_SIZE]
  ext i j
  simp only [Matrix.of_apply, affineTrack, Matrix.mulVec, Matrix.dotProduct, blk4]
  rw [div_eq_iff hstep]
  have hsplit : ∀ m : Fin 6,
      M (emb46 i) m * (r m + if m = emb46 j then STEP_SIZE else 0) =
        M (emb46 i) m * r m + (if m = emb46 j then M (emb46 i) m * STEP_SIZE else 0) := by
    intro m
    by_cases hm : m = emb46 j <;> simp [hm] <;> ring
  calc (∑ m, M (emb46 i) m * (r m + if m = emb46 j then STEP_SIZE else 0)) + c (emb46 i) -
        ((∑ m, M (emb46 i) m * r m) + c (emb46 i))
      = ∑ m, (if m = emb46 j then M (emb46 i) m * STEP_SIZE else 0) := by
        rw [Finset.sum_congr rfl fun m _ => hsplit m, Finset.sum_add_distrib]
        ring
    _ = M (emb46 i) (emb46 j) * STEP_SIZE := by
        rw [Finset.sum_ite_eq']
        simp

/-- One loop body execution on an affine tracked turn jumps, from any
embedded transverse state, straight to the exact fixed point: the
Newton-Raphson step is exact for affine maps with invertible `A - I`. -/
lemma orbitStep_affine (M : Matrix (Fin 6) (Fin 6) ℝ) (c : V6) (dp : ℝ)
    (hdet : IsUnit (blk4 M - 1).det) (s : OrbitState) (x : V4)
    (hs : s.r = embed6 x dp) :
    (orbitStep (affineTrack M c) s).r = embed6 (affineFix M c dp) dp := by
  have hb : (fun i => affineTrack M c s.r (emb46 i) - s.r (emb46 i)) =
      (blk4 M - 1).mulVec x + affineOffset M c dp := by
    funext i
    rw [hs]
    rw [affineTrack_emb]
    have hsr : embed6 x dp (emb46 i) = x i := by
      have hlt : (emb46 i).val < 4 := i.isLt
      simp only [embed6, hlt, dite_true]
      exact congrArg x (Fin.ext rfl)
    rw [hsr]
    simp only [Pi.add_apply, Matrix.sub_mulVec, Pi.sub_apply, Matrix.mulVec,
      Matrix.dotProduct, Matrix.one_apply]
    have hx : (∑ j, (if i = j then (1 : ℝ) else 0) * x j) = x i := by
      have hterm : ∀ j : Fin 4, (if i = j then (1 : ℝ) else 0) * x j =
          if i = j then x j else 0 := by
        intro j
        by_cases hj : i = j <;> simp [hj]
      rw [Finset.sum_congr rfl fun j _ => hterm j, Finset.sum_ite_eq]
      simp
    rw [hx]
    ring
  have hdelta : lstsq (blk4 M - 1) ((blk4 M - 1).mulVec x + affineOffset M c dp) =
      x - affineFix M c dp := by
    unfold lstsq
    rw [Matrix.mulVec_add, Matrix.mulVec_mulVec, Matrix.nonsing_inv_mul _ hdet,
      Matrix.one_mulVec]
    funext i
    simp [affineFix, sub_eq_add_neg]
  funext m
  show (orbitStep (affineTrack M c) s).r m = embed6 (affineFix M c dp) dp m
  simp only [orbitStep, orbitStep_jacobian_affine M c s.r, hb, hdelta]
  by_cases hm : m.val < 4
  · have h1 : s.r m = x ⟨m.val, hm⟩ := by rw [hs]; simp [embed6, hm]
    have h2 : embed6 (affineFix M c dp) dp m = affineFix M c dp ⟨m.val, hm⟩ := by
      simp [embed6, hm]
    simp only [hm, dite_true, h1, h2, Pi.sub_apply]
    ring
  · have h1 : s.r m = embed6 x dp m := by rw [hs]
    have h2 : embed6 x dp m = embed6 (affineFix M c dp) dp m := by
      simp [embed6, hm]
    simp only [hm, dite_false, h1, h2]
    ring

/-- The state at the exact affine fixed point is preserved by the loop. -/
lemma orbitLoop_affine_invariant (M : Matrix (Fin 6) (Fin 6) ℝ) (c : V6) (dp : ℝ)
    (hdet : IsUnit (blk4 M - 1).det) :
    ∀ (n : ℕ) (s : OrbitState), s.r = embed6 (affineFix M c dp) dp →
      (orbitLoop (affineTrack M c) n s).r = embed6 (affineFix M c dp) dp := by
  intro n
  induction n with
  | zero => intro s hs; exact hs
  | succ n ih =>
    intro s hs
    by_cases hg : s.change > CONVERGENCE ∧ s.itercount < MAX_ITERATIONS
    · rw [orbitLoop, if_pos hg]
      exact ih _ (orbitStep_affine M c dp hdet s _ hs)
    · rw [orbitLoop, if_neg hg]
      exact hs

/-- On an affine tracked turn with invertible `A - I` the whole loop lands
exactly on the affine fixed point, whatever made it stop. -/
lemma orbitLoop_affine_final (M : Matrix (Fin 6) (Fin 6) ℝ) (c : V6) (dp : ℝ)
    (hdet : IsUnit (blk4 M - 1).det) :
    (orbitLoop (affineTrack M c) MAX_ITERATIONS (initOrbitState dp)).r =
      embed6 (affineFix M c dp) dp := by
  have hinit : (initOrbitState dp).r = embed6 (fun _ => 0) dp := by
    funext m
    simp only [initOrbitState, embed6]
    by_cases h4 : m.val < 4
    · have : ¬ m.val = 4 := by omega
      simp [h4, this]
    · by_cases h5 : m.val = 4 <;> simp [h4, h5]
  have hguard : (initOrbitState dp).change > CONVERGENCE ∧
      (initOrbitState dp).itercount < MAX_ITERATIONS := by
    constructor
    · show (1 : ℝ) > CONVERGENCE
      norm_num [CONVERGENCE]
    · show 0 < MAX_ITERATIONS
      norm_num [MAX_ITERATIONS]
  rw [show MAX_ITERATIONS = 19 + 1 from rfl, orbitLoop, if_pos hguard]
  exact orbitLoop_affine_invariant M c dp hdet 19 _
    (orbitStep_affine M c dp hdet _ _ hinit)

/-- The affine fixed point really is a fixed point of the transverse
one-turn affine map. -/
lemma affineFix_isFixed (M : Matrix (Fin 6) (Fin 6) ℝ) (c : V6) (dp : ℝ)
    (hdet : IsUnit (blk4 M - 1).det) :
    (blk4 M).mulVec (affineFix M c dp) + affineOffset M c dp = affineFix M c dp := by
  have hfix : affineFix M c dp =
      -(((blk4 M - 1)⁻¹).mulVec (affineOffset M c dp)) := by
    funext i
    simp [affineFix]
  rw [hfix]
  have hmul : (blk4 M - 1).mulVec (-(((blk4 M - 1)⁻¹).mulVec (affineOffset M c dp))) =
      -(affineOffset M c dp) := by
    rw [Matrix.mulVec_neg, Matrix.mulVec_mulVec, Matrix.mul_nonsing_inv _ hdet,
      Matrix.one_mulVec]
  have hexpand : (blk4 M).mulVec (-(((blk4 M - 1)⁻¹).mulVec (affineOffset M c dp))) =
      (blk4 M - 1).mulVec (-(((blk4 M - 1)⁻¹).mulVec (affineOffset M c dp))) +
        (-(((blk4 M - 1)⁻¹).mulVec (affineOffset M c dp))) := by
    rw [Matrix.sub_mulVec, Matrix.one_mulVec]
    abel
  rw [hexpand, hmul]
  abel

/-- Reading the transverse components back off an embedded 6-vector. -/
lemma first4_embed6 (x : V4) (dp : ℝ) : first4 (embed6 x dp) = x := by
  funext i
  have hlt : (emb46 i).val < 4 := i.isLt
  simp only [first4, embed6, hlt, dite_true]
  exact congrArg x (Fin.ext rfl)

/-- C1 (amended): the loop controls the norm of the Newton correction, not
the one-turn residual, so the claimed fixed-point property needs the
one-turn map to be affine with `A - I` invertible (`A` its transverse
block); the returned orbit is then an exact fixed point of the transverse
one-turn map, in particular a fixed point to within the 1e-12 solver
tolerance. -/
theorem C1_fixed_point_amended (ring : ARing) (M : Matrix (Fin 6) (Fin 6) ℝ)
    (c : V6) (dp : ℝ) (rp : List ℕ)
    (hT : ring.trackTo ring.len = affineTrack M c)
    (hdet : IsUnit (blk4 M - 1).det) :
    first4 (ring.trackTo ring.len (embed6 (findOrbit4 ring dp rp).1 dp)) =
      (findOrbit4 ring dp rp).1 ∧
    vnorm4 (fun i =>
      ring.trackTo ring.len (embed6 (findOrbit4 ring dp rp).1 dp) (emb46 i) -
        (findOrbit4 ring dp rp).1 i) ≤ CONVERGENCE := by
  have horb : (findOrbit4 ring dp rp).1 = affineFix M c dp := by
    show first4 (orbitLoop (ring.trackTo ring.len) MAX_ITERATIONS (initOrbitState dp)).r =
      affineFix M c dp
    rw [hT, orbitLoop_affine_final M c dp hdet, first4_embed6]
  have hfixed : first4 (ring.trackTo ring.len (embed6 (affineFix M c dp) dp)) =
      affineFix M c dp := by
    funext i
    show ring.trackTo ring.len (embed6 (affineFix M c dp) dp) (emb46 i) = _
    rw [hT, affineTrack_emb]
    have hpt := congrFun (affineFix_isFixed M c dp hdet) i
    simpa [Matrix.mulVec, Matrix.dotProduct] using hpt
  constructor
  · rw [horb]
    exact hfixed
  · have hz : (fun i =>
        ring.trackTo ring.len (embed6 (findOrbit4 ring dp rp).1 dp) (emb46 i) -
          (findOrbit4 ring dp rp).1 i) = fun _ => (0 : ℝ) := by
      funext i
      rw [horb]
      have := congrFun hfixed i
      simp only [first4] at this
      rw [this]
      ring
    rw [hz, vnorm4_zero]
    norm_num [CONVERGENCE]

/-- A drift-like affine witness ring: the linear part doubles the
transverse coordinates (so `A - I = I` is invertible) and the constant
part kicks the horizontal position. -/
noncomputable def ringC1w : ARing :=
  { len := 1
    trackTo := fun _ => affineTrack ((2 : ℝ) • 1) (fun m => if m = 0 then 1 else 0)
    sPos := fun _ => 0 }

/-- The transverse block of the doubled identity, minus the identity, is
the identity. -/
lemma blk4_two_smul_one : blk4 ((2 : ℝ) • 1 : Matrix (Fin 6) (Fin 6) ℝ) - 1 = (1 : M4) := by
  ext i j
  by_cases hij : i = j
  · subst hij
    simp [blk4, Matrix.one_apply]
    norm_num
  · have hne : emb46 i ≠ emb46 j := by
      intro hc
      exact hij (Fin.ext (show i.val = j.val from congrArg (Fin.val : Fin 6 → ℕ) hc))
    simp [blk4, Matrix.one_apply, hne, hij]

/-- Witness for the amended C1 at a concrete affine lattice. -/
theorem C1_fixed_point_amended_witness :
    first4 (ringC1w.trackTo ringC1w.len (embed6 (findOrbit4 ringC1w 0 []).1 0)) =
      (findOrbit4 ringC1w 0 []).1 :=
  (C1_fixed_point_amended ringC1w ((2 : ℝ) • 1) (fun m => if m = 0 then 1 else 0) 0 []
    rfl (by rw [blk4_two_smul_one]; simp)).1

/-- A constant transverse kick: every turn adds 1 to the horizontal
position, so the one-turn map has no fixed point at all. -/
def kickT : V6 → V6 := fun v m => v m + (if m = 0 then 1 else 0)

/-- A one-element ring whose tracked turn is the constant kick. -/
def ringKick : ARing := { len := 1, trackTo := fun _ => kickT, sPos := fun _ => 0 }

/-- On the kick map the finite-difference Jacobian is the identity, `J - I`
is singular, the least-squares step is zero and the loop body therefore
reports a zero correction while moving nowhere. -/
lemma kick_step :
    orbitStep kickT (initOrbitState 0) =
      { r := (initOrbitState 0).r, change := 0, itercount := 1 } := by
  have hstep : STEP_SIZE ≠ 0 := by norm_num [STEP_SIZE]
  have hj4 : (Matrix.of fun i j =>
      (kickT (fun m => (initOrbitState 0).r m + if m = emb46 j then STEP_SIZE else 0)
          (emb46 i) -
        (fun i2 => kickT (initOrbitState 0).r (emb46 i2)) i) / STEP_SIZE) = (1 : M4) := by
    ext i j
    simp only [Matrix.of_apply, kickT, Matrix.one_apply]
    by_cases hij : i = j
    · subst hij
      simp [div_eq_iff hstep]
    · have hne : emb46 i ≠ emb46 j := by
        intro hc
        exact hij (Fin.ext (show i.val = j.val from congrArg (Fin.val : Fin 6 → ℕ) hc))
      simp [hne, hij]
  show ({ r := _, change := _, itercount := _ } : OrbitState) = _
  simp only [orbitStep, hj4, sub_self, lstsq_zero_matrix]
  have hr : (fun m : Fin 6 => (initOrbitState 0).r m -
      (if _ : m.val < 4 then (0 : ℝ) else 0)) = (initOrbitState 0).r := by
    funext m
    by_cases hlt : m.val < 4 <;> simp [hlt]
  have hchange : (fun m : Fin 6 =>
      ((initOrbitState 0).r m - (if _ : m.val < 4 then (0 : ℝ) else 0)) -
        (initOrbitState 0).r m) = fun _ => (0 : ℝ) := by
    funext m
    by_cases hlt : m.val < 4 <;> simp [hlt]
  rw [hchange, hr, vnorm6_zero]
  rfl

/-- The loop on the kick ring: one body execution, then the zero-correction
guard stops it at the unmoved initial iterate. -/
lemma kick_loop :
    orbitLoop kickT MAX_ITERATIONS (initOrbitState 0) =
      { r := (initOrbitState 0).r, change := 0, itercount := 1 } := by
  have hguard : (initOrbitState 0).change > CONVERGENCE ∧
      (initOrbitState 0).itercount < MAX_ITERATIONS := by
    constructor
    · show (1 : ℝ) > CONVERGENCE
      norm_num [CONVERGENCE]
    · show 0 < MAX_ITERATIONS
      norm_num [MAX_ITERATIONS]
  rw [show MAX_ITERATIONS = 19 + 1 from rfl, orbitLoop, if_pos hguard, kick_step]
  exact orbitLoop_stop _ 19 _ (by norm_num [CONVERGENCE])

/-- C1 is false as stated: on the constant-kick lattice the Newton loop
exits with correction norm 0 (at or below the 1e-12 tolerance) because
`J - I` is singular and the least-squares step is zero, yet tracking the
returned orbit one more turn moves it by a full unit — the returned orbit
is not a fixed point to within any tolerance below 1. -/
theorem C1_counterexample :
    (orbitLoop kickT MAX_ITERATIONS (initOrbitState 0)).change ≤ CONVERGENCE ∧
    vnorm4 (fun i => ringKick.trackTo ringKick.len
        (embed6 (findOrbit4 ringKick 0 []).1 0) (emb46 i) -
      (findOrbit4 ringKick 0 []).1 i) = 1 ∧
    ¬ vnorm4 (fun i => ringKick.trackTo ringKick.len
        (embed6 (findOrbit4 ringKick 0 []).1 0) (emb46 i) -
      (findOrbit4 ringKick 0 []).1 i) ≤ CONVERGENCE := by
  have horb : (findOrbit4 ringKick 0 []).1 = fun _ => (0 : ℝ) := by
    show first4 (orbitLoop kickT MAX_ITERATIONS (initOrbitState 0)).r = _
    rw [kick_loop]
    funext i
    have : ¬ (emb46 i).val = 4 := by
      have := i.isLt
      simp only [emb46]
      omega
    simp [first4, initOrbitState, this]
  have hemb : embed6 (fun _ => (0 : ℝ)) 0 = fun _ => (0 : ℝ) := by
    funext m
    by_cases hlt : m.val < 4
    · simp [embed6, hlt]
    · by_cases h4 : m.val = 4 <;> simp [embed6, hlt, h4]
  have hdiff : (fun i => ringKick.trackTo ringKick.len
      (embed6 (findOrbit4 ringKick 0 []).1 0) (emb46 i) -
      (findOrbit4 ringKick 0 []).1 i) = fun i => if i = 0 then (1 : ℝ) else 0 := by
    rw [horb, hemb]
    funext i
    show kickT (fun _ => 0) (emb46 i) - 0 = _
    simp only [kickT, zero_add, sub_zero]
    by_cases hi : i = 0
    · subst hi
      rw [if_pos (show emb46 0 = 0 by decide), if_pos rfl]
    · have hne : emb46 i ≠ 0 := by
        intro hc
        exact hi (Fin.ext (show i.val = (0 : Fin 4).val from
          congrArg (Fin.val : Fin 6 → ℕ) hc))
      rw [if_neg hne, if_neg hi]
  have hnorm : vnorm4 (fun i => if i = 0 then (1 : ℝ) else 0) = 1 := by
    rw [vnorm4, Fin.sum_univ_four]
    rw [if_pos rfl, if_neg (show (1 : Fin 4) ≠ 0 by decide),
      if_neg (show (2 : Fin 4) ≠ 0 by decide), if_neg (show (3 : Fin 4) ≠ 0 by decide)]
    norm_num
  refine ⟨?_, ?_, ?_⟩
  · rw [kick_loop]
    norm_num [CONVERGENCE]
  · rw [hdiff, hnorm]
  · rw [hdiff, hnorm]
    norm_num [CONVERGENCE]

/-- C5: the Newton-Raphson loop of `find_orbit4` iterates at most 20 times;
it stops as soon as the correction norm is at or below 1e-12 (in particular
whenever it drops below the tolerance); the 20-iteration cap comes from the
loop guard itself (supplying more fuel changes nothing); and when the loop
stops — by tolerance or by cap — the last iterate is returned together with
the tracked orbit, with no error path. -/
theorem C5_iteration_cap (T : V6 → V6) (dp : ℝ) :
    (orbitLoop T MAX_ITERATIONS (initOrbitState dp)).itercount ≤ MAX_ITERATIONS ∧
    (∀ (n : ℕ) (s : OrbitState), s.change ≤ CONVERGENCE → orbitLoop T n s = s) ∧
    (∀ n : ℕ, MAX_ITERATIONS ≤ n →
      orbitLoop T n (initOrbitState dp) = orbitLoop T MAX_ITERATIONS (initOrbitState dp)) ∧
    (∀ (ring : ARing) (rp : List ℕ), ring.trackTo ring.len = T →
      findOrbit4 ring dp rp =
        (first4 (orbitLoop T MAX_ITERATIONS (initOrbitState dp)).r,
          rp.map fun k =>
            first4 (ring.trackTo k (orbitLoop T MAX_ITERATIONS (initOrbitState dp)).r))) := by
  refine ⟨?_, ?_, ?_, ?_⟩
  · exact orbitLoop_itercount T MAX_ITERATIONS _ (by norm_num [initOrbitState])
  · intro n s hs
    exact orbitLoop_stop T n s hs
  · intro n hn
    refine orbitLoop_fuel T n MAX_ITERATIONS _ ?_ ?_
    · show MAX_ITERATIONS - (0 : ℕ) ≤ n
      omega
    · show MAX_ITERATIONS - (0 : ℕ) ≤ MAX_ITERATIONS
      omega
  · intro ring rp hT
    unfold findOrbit4
    rw [hT]

/-- Witness for C5 on the identity tracker. -/
theorem C5_iteration_cap_witness :
    (orbitLoop (fun v => v) MAX_ITERATIONS (initOrbitState 0)).itercount ≤ MAX_ITERATIONS ∧
    orbitLoop (fun v => v) 5
        { r := fun _ => 0, change := 0, itercount := 0 } =
      { r := fun _ => 0, change := 0, itercount := 0 } ∧
    orbitLoop (fun v => v) 25 (initOrbitState 0) =
      orbitLoop (fun v => v) MAX_ITERATIONS (initOrbitState 0) :=
  ⟨(C5_iteration_cap (fun v => v) 0).1,
    (C5_iteration_cap (fun v => v) 0).2.1 5 _ (by norm_num [CONVERGENCE]),
    (C5_iteration_cap (fun v => v) 0).2.2.1 25 (by norm_num [MAX_ITERATIONS])⟩

/-- C7: `find_m44` tracks exactly the 8-column batch of probes — the
6-D closed orbit displaced by plus and minus half of the step along each of
the 4 transverse axes (columns 0-3 the plus-probes, columns 4-7 the
minus-probes) — and the matrix reported at each requested reference point
has column `j` equal to (plus-probe output minus minus-probe output)
divided by the full step, columns ordered (x, px, y, py); the returned
one-turn matrix is the per-point matrix at the lattice end. -/
theorem C7_probe_batch (ring : ARing) (dp xyh : ℝ) (o : V4) (l : List ℕ)
    (hne : l ≠ []) :
    (∃ mstack rpOut, findM44 ring dp (some l) (some o) xyh =
        some (m44At ring o dp xyh ring.len, mstack, rpOut) ∧
        mstack = l.map (m44At ring o dp xyh)) ∧
    (∀ (j : Fin 4) (m : Fin 6),
      embed6 o dp m + dmat xyh m (plusIdx j) =
        embed6 o dp m + (if m = emb46 j then xyh / 2 else 0)) ∧
    (∀ (j : Fin 4) (m : Fin 6),
      embed6 o dp m + dmat xyh m (minusIdx j) =
        embed6 o dp m - (if m = emb46 j then xyh / 2 else 0)) ∧
    (∀ (k : ℕ) (i j : Fin 4), m44At ring o dp xyh k i j =
      (ring.trackTo k
          (fun m => embed6 o dp m + (if m = emb46 j then xyh / 2 else 0)) (emb46 i) -
        ring.trackTo k
          (fun m => embed6 o dp m - (if m = emb46 j then xyh / 2 else 0)) (emb46 i)) /
        xyh) := by
  have hplus : ∀ (j : Fin 4) (m : Fin 6),
      embed6 o dp m + dmat xyh m (plusIdx j) =
        embed6 o dp m + (if m = emb46 j then xyh / 2 else 0) := by
    intro j m
    rw [dmat_plus]
    by_cases hm : m = emb46 j <;> simp [hm] <;> ring
  have hminus : ∀ (j : Fin 4) (m : Fin 6),
      embed6 o dp m + dmat xyh m (minusIdx j) =
        embed6 o dp m - (if m = emb46 j then xyh / 2 else 0) := by
    intro j m
    rw [dmat_minus]
    by_cases hm : m = emb46 j <;> simp [hm] <;> ring
  refine ⟨?_, hplus, hminus, ?_⟩
  · by_cases hlast : l.getLast! = ring.len
    · exact ⟨l.map (m44At ring o dp xyh), l, findM44_last ring dp xyh o l hne hlast, rfl⟩
    · exact ⟨l.map (m44At ring o dp xyh), l ++ [ring.len],
        findM44_append ring dp xyh o l hne hlast, rfl⟩
  · intro k i j
    simp only [m44At, Matrix.of_apply]
    congr 1
    congr 1
    · exact congrArg (fun f => ring.trackTo k f (emb46 i)) (funext fun m => hplus j m)
    · exact congrArg (fun f => ring.trackTo k f (emb46 i)) (funext fun m => hminus j m)

/-- Witness for C7 at a concrete ring, reference-point list and step. -/
theorem C7_probe_batch_witness :
    (∃ mstack rpOut, findM44 ringKick 0 (some [1]) (some (fun _ => 0)) XYDEFSTEP =
        some (m44At ringKick (fun _ => 0) 0 XYDEFSTEP ringKick.len, mstack, rpOut) ∧
        mstack = [1].map (m44At ringKick (fun _ => 0) 0 XYDEFSTEP)) ∧
    (∀ (j : Fin 4) (m : Fin 6),
      embed6 (fun _ => 0) 0 m + dmat XYDEFSTEP m (plusIdx j) =
        embed6 (fun _ => 0) 0 m + (if m = emb46 j then XYDEFSTEP / 2 else 0)) ∧
    (∀ (j : Fin 4) (m : Fin 6),
      embed6 (fun _ => 0) 0 m + dmat XYDEFSTEP m (minusIdx j) =
        embed6 (fun _ => 0) 0 m - (if m = emb46 j then XYDEFSTEP / 2 else 0)) ∧
    (∀ (k : ℕ) (i j : Fin 4), m44At ringKick (fun _ => 0) 0 XYDEFSTEP k i j =
      (ringKick.trackTo k
          (fun m => embed6 (fun _ => 0) 0 m + (if m = emb46 j then XYDEFSTEP / 2 else 0))
          (emb46 i) -
        ringKick.trackTo k
          (fun m => embed6 (fun _ => 0) 0 m - (if m = emb46 j then XYDEFSTEP / 2 else 0))
          (emb46 i)) / XYDEFSTEP) :=
  C7_probe_batch ringKick 0 XYDEFSTEP (fun _ => 0) [1] (by simp)

/-- C2: on a conservative lattice, modelled as an exactly affine tracked
turn whose transverse linear block `A` is symplectic, the one-turn matrix
returned by `find_m44` is exactly `A`, hence satisfies `MᵀJM = J` and has
determinant exactly 1. -/
theorem C2_symplectic_m44 (ring : ARing) (M : Matrix (Fin 6) (Fin 6) ℝ) (c : V6)
    (hT : ring.trackTo ring.len = affineTrack M c)
    (hS : (blk4 M)ᵀ * J4 * blk4 M = J4) (dp : ℝ) (o : V4) :
    ∃ st, findM44 ring dp none (some o) XYDEFSTEP = some st ∧
      st.1ᵀ * J4 * st.1 = J4 ∧ st.1.det = 1 := by
  have hxy : XYDEFSTEP ≠ 0 := by norm_num [XYDEFSTEP]
  have hm : m44At ring o dp XYDEFSTEP ring.len = blk4 M :=
    m44At_affine ring M c ring.len hT o dp XYDEFSTEP hxy
  refine ⟨(blk4 M, [], [ring.len]), ?_, hS, det_one_of_symplectic _ hS⟩
  rw [findM44_none, hm]

/-- The 2 x 2 transfer matrix of a drift of unit length. -/
def D2drift : M2 := !![1, 1; 0, 1]

/-- A one-element drift ring, tracked by the exact affine (here linear)
drift map in both transverse planes. -/
noncomputable def ringDrift : ARing :=
  { len := 1
    trackTo := fun _ => affineTrack (blk6 D2drift D2drift) (fun _ => 0)
    sPos := fun _ => 0 }

/-- The transverse 4 x 4 block of an uncoupled 6 x 6 map is the
block-diagonal juxtaposition of the two plane blocks. -/
lemma blk4_blk6 (X Y : M2) : blk4 (blk6 X Y) =
    !![X 0 0, X 0 1, 0, 0;
       X 1 0, X 1 1, 0, 0;
       0, 0, Y 0 0, Y 0 1;
       0, 0, Y 1 0, Y 1 1] := by
  ext i j
  fin_cases i <;> fin_cases j <;>
    simp [blk4, blk6, show emb46 0 = (0 : Fin 6) from rfl,
      show emb46 1 = (1 : Fin 6) from rfl, show emb46 2 = (2 : Fin 6) from rfl,
      show emb46 3 = (3 : Fin 6) from rfl]
  all_goals rfl

/-- The transverse block of the block-diagonal drift map is symplectic. -/
lemma drift_symplectic :
    (blk4 (blk6 D2drift D2drift))ᵀ * J4 * blk4 (blk6 D2drift D2drift) = J4 := by
  have hD : blk4 (blk6 D2drift D2drift) =
      !![(1 : ℝ), 1, 0, 0; 0, 1, 0, 0; 0, 0, 1, 1; 0, 0, 0, 1] := by
    rw [blk4_blk6]
    ext i j
    fin_cases i <;> fin_cases j <;> simp [D2drift]
  have ht : (!![(1 : ℝ), 1, 0, 0; 0, 1, 0, 0; 0, 0, 1, 1; 0, 0, 0, 1])ᵀ =
      !![(1 : ℝ), 0, 0, 0; 1, 1, 0, 0; 0, 0, 1, 0; 0, 0, 1, 1] := by
    ext i j
    fin_cases i <;> fin_cases j <;> rfl
  rw [hD, ht]
  ext i j
  fin_cases i <;> fin_cases j <;>
    simp [Matrix.mul_apply, Fin.sum_univ_four, J4, Matrix.vecHead, Matrix.vecTail] <;>
    norm_num

/-- Witness for C2 at the concrete drift ring. -/
theorem C2_symplectic_m44_witness :
    ∃ st, findM44 ringDrift 0 none (some (fun _ => 0)) XYDEFSTEP = some st ∧
      st.1ᵀ * J4 * st.1 = J4 ∧ st.1.det = 1 :=
  C2_symplectic_m44 ringDrift (blk6 D2drift D2drift) (fun _ => 0) rfl
    drift_symplectic 0 (fun _ => 0)

/-- Structural form of the jump indicators: one indicator per consecutive
pair, carrying the previous element along. -/
noncomputable def jlist : ℝ → List ℝ → List ℝ
  | _, [] => []
  | prev, x :: xs => jIndicator (x - prev) :: jlist x xs

/-- The mapped indicators of the `numpy.diff` list are the structural jump
list. -/
lemma map_jIndicator_diff (a : ℝ) (t : List ℝ) :
    (List.zipWith (fun prev x => x - prev) (a :: t) t).map jIndicator = jlist a t := by
  induction t generalizing a with
  | nil => rfl
  | cons b t ih => simp [jlist, ih]

/-- `betatron_phase_unwrap` on a nonempty list, rephrased through the
structural jump list and a running cumulative sum. -/
lemma unwrap_eq (a : ℝ) (t : List ℝ) :
    betatron_phase_unwrap (a :: t) =
      List.zipWith (fun x c => x + c * Real.pi) (a :: t)
        (List.scanl (· + ·) 0 (jlist a t)) := by
  unfold betatron_phase_unwrap
  simp only [List.tail_cons]
  rw [show ((0 : ℝ) :: List.zipWith (fun prev x => x - prev) (a :: t) t).map jIndicator =
      jIndicator 0 :: jlist a t by
    rw [List.map_cons, map_jIndicator_diff]]
  have h0 : jIndicator 0 = 0 := by simp [jIndicator]
  rw [h0, List.scanl_cons]
  simp

/-- Core monotonicity induction: starting from any accumulated number of
jumps, the partially unwrapped sequence is non-decreasing provided all raw
values lie in the open arctangent range. -/
lemma unwrap_chain_aux :
    ∀ (t : List ℝ) (prev acc : ℝ),
      -(Real.pi / 2) < prev → prev < Real.pi / 2 →
      (∀ x ∈ t, -(Real.pi / 2) < x ∧ x < Real.pi / 2) →
      List.Chain' (· ≤ ·)
        (List.zipWith (fun x c => x + c * Real.pi) (prev :: t)
          (List.scanl (· + ·) acc (jlist prev t))) := by
  intro t
  induction t with
  | nil =>
    intro prev acc h1 h2 h3
    simp only [jlist, List.scanl_nil, List.zipWith_cons_cons, List.zipWith_nil_right]
    exact List.chain'_singleton _
  | cons b t ih =>
    intro prev acc h1 h2 h3
    have hb : -(Real.pi / 2) < b ∧ b < Real.pi / 2 := h3 b (by simp)
    have hrest : ∀ x ∈ t, -(Real.pi / 2) < x ∧ x < Real.pi / 2 :=
      fun x hx => h3 x (by simp [hx])
    have htail := ih b (acc + jIndicator (b - prev)) hb.1 hb.2 hrest
    have hineq : prev + acc * Real.pi ≤ b + (acc + jIndicator (b - prev)) * Real.pi := by
      by_cases hj : b - prev < 0
      · have hj1 : jIndicator (b - prev) = 1 := by simp [jIndicator, hj]
        rw [hj1]
        nlinarith [Real.pi_pos, hb.1, h2]
      · have hj0 : jIndicator (b - prev) = 0 := by simp [jIndicator, hj]
        rw [hj0]
        have hle : prev ≤ b := by linarith [not_lt.mp hj]
        linarith
    have hheadL : (List.zipWith (fun x c => x + c * Real.pi) (b :: t)
        (List.scanl (· + ·) (acc + jIndicator (b - prev)) (jlist b t))).head? =
        some (b + (acc + jIndicator (b - prev)) * Real.pi) := by
      cases t with
      | nil => simp [jlist]
      | cons x2 t2 => simp [jlist, List.scanl_cons]
    show List.Chain' (· ≤ ·)
      (List.zipWith (fun x c => x + c * Real.pi) (prev :: b :: t)
        (List.scanl (· + ·) acc (jIndicator (b - prev) :: jlist b t)))
    rw [List.scanl_cons]
    simp only [List.cons_append, List.nil_append, List.zipWith_cons_cons]
    refine List.chain'_cons'.mpr ⟨?_, htail⟩
    intro y hy
    rw [hheadL] at hy
    simp only [Option.mem_def, Option.some.injEq] at hy
    rw [← hy]
    exact hineq

/-- Monotonicity of the unwrapped sequence for raw values in the open
arctangent range. -/
lemma unwrap_chain (m : List ℝ)
    (hm : ∀ x ∈ m, -(Real.pi / 2) < x ∧ x < Real.pi / 2) :
    List.Chain' (· ≤ ·) (betatron_phase_unwrap m) := by
  cases m with
  | nil => simp [betatron_phase_unwrap]
  | cons a t =>
    rw [unwrap_eq]
    exact unwrap_chain_aux t a 0 (hm a (by simp)).1 (hm a (by simp)).2
      (fun x hx => hm x (by simp [hx]))

/-- C6: `betatron_phase_unwrap` — which adds pi cumulatively from every
negative raw difference onward — maps any finite sequence with values in
the open interval (-pi/2, pi/2) to a sequence that is non-decreasing in
index order; in particular the unwrapped arctangent-produced phase-advance
sequence of `get_twiss` is non-decreasing. -/
theorem C6_unwrap_monotone :
    (∀ m : List ℝ, (∀ x ∈ m, -(Real.pi / 2) < x ∧ x < Real.pi / 2) →
      List.Chain' (· ≤ ·) (betatron_phase_unwrap m)) ∧
    (∀ l : List ℝ, List.Chain' (· ≤ ·) (betatron_phase_unwrap (l.map Real.arctan))) := by
  refine ⟨fun m hm => unwrap_chain m hm, fun l => unwrap_chain _ ?_⟩
  intro x hx
  obtain ⟨y, -, rfl⟩ := List.mem_map.mp hx
  exact ⟨Real.neg_pi_div_two_lt_arctan y, Real.arctan_lt_pi_div_two y⟩

/-- Witness for C6 on a concrete raw phase sequence. -/
theorem C6_unwrap_monotone_witness :
    (∀ x ∈ [(1 : ℝ) / 2, -(1 / 3), 2 / 5], -(Real.pi / 2) < x ∧ x < Real.pi / 2) ∧
    List.Chain' (· ≤ ·) (betatron_phase_unwrap [(1 : ℝ) / 2, -(1 / 3), 2 / 5]) := by
  have hπ : (3 : ℝ) < Real.pi := Real.pi_gt_three
  have hb : ∀ x ∈ [(1 : ℝ) / 2, -(1 / 3), 2 / 5], -(Real.pi / 2) < x ∧ x < Real.pi / 2 := by
    intro x hx
    simp only [List.mem_cons, List.mem_singleton, List.not_mem_nil, or_false] at hx
    rcases hx with h | h | h <;> subst h <;> constructor <;> nlinarith
  exact ⟨hb, C6_unwrap_monotone.1 _ hb⟩

/-- C10: with a non-empty reference-point list whose final entry is not the
lattice length, `find_m44` appends the lattice length to the caller's list
in place — modelled by explicit state passing, the list visible to the
caller after the call is the input list with one extra element — and with
an empty list the call fails on `refpts[-1]` (IndexError) instead of
returning an empty matrix stack. -/
theorem C10_refpts_mutation :
    (∀ (l : List ℕ) (n : ℕ), l ≠ [] → l.getLast! ≠ n →
      normRefpts (some l) n = some (l ++ [n], false) ∧
        (l ++ [n]).length = l.length + 1) ∧
    (∀ (ring : ARing) (dp xyh : ℝ) (o : V4) (l : List ℕ),
      l ≠ [] → l.getLast! ≠ ring.len →
      findM44 ring dp (some l) (some o) xyh =
        some (m44At ring o dp xyh ring.len, l.map (m44At ring o dp xyh),
          l ++ [ring.len])) ∧
    (∀ n : ℕ, normRefpts (some ([] : List ℕ)) n = none) ∧
    (∀ (ring : ARing) (dp xyh : ℝ) (o : Option V4),
      findM44 ring dp (some []) o xyh = none) := by
  refine ⟨?_, ?_, ?_, ?_⟩
  · intro l n hne hlast
    refine ⟨?_, by simp⟩
    cases l with
    | nil => exact absurd rfl hne
    | cons a tl =>
      simp only [normRefpts]
      rw [if_pos (by simpa using hlast)]
  · intro ring dp xyh o l hne hlast
    exact findM44_append ring dp xyh o l hne hlast
  · intro n
    rfl
  · intro ring dp xyh o
    rfl

/-- Witness for C10 at concrete lists and a concrete ring. -/
theorem C10_refpts_mutation_witness :
    normRefpts (some [0]) 1 = some ([0, 1], false) ∧
    findM44 ringKick 0 (some [0]) (some (fun _ => 0)) 1 =
      some (m44At ringKick (fun _ => 0) 0 1 ringKick.len,
        [0].map (m44At ringKick (fun _ => 0) 0 1), [0] ++ [ringKick.len]) ∧
    findM44 ringKick 0 (some []) none 1 = none :=
  ⟨(C10_refpts_mutation.1 [0] 1 (by simp) (by decide)).1,
    C10_refpts_mutation.2.1 ringKick 0 1 (fun _ => 0) [0] (by simp)
      (by show (0 : ℕ) ≠ 1; decide),
    C10_refpts_mutation.2.2.2 ringKick 0 1 none⟩

/-- C4 (amended): `twiss22` raises (ValueError from `math.sqrt`) exactly
when its square-root argument `-M01*M10 - ((M00 - M11)/2)^2` is negative,
and then no result is produced; for a block of determinant 1 — the case of
an exact symplectic one-turn block — this is equivalent to trace magnitude
exceeding 2: trace magnitude strictly below 2 guarantees success, trace
magnitude strictly above 2 guarantees the fatal error.  (At trace magnitude
exactly 2, or for M01 = 0 with equal diagonal, the square root succeeds and
the following numpy divisions by a zero `sin_mu_end` produce junk values
without raising, so the claimed failure condition is not exact there.) -/
theorem C4_twiss22_domain (mat : M2) (ms : List M2) :
    (twiss22 mat ms = none ↔ sqrtArg mat < 0) ∧
    (mat.det = 1 →
      ((|mat 0 0 + mat 1 1| < 2 → (twiss22 mat ms).isSome) ∧
       (2 < |mat 0 0 + mat 1 1| → twiss22 mat ms = none))) := by
  have hiff : twiss22 mat ms = none ↔ sqrtArg mat < 0 := by
    by_cases h : sqrtArg mat < 0 <;> simp [twiss22, h]
  refine ⟨hiff, fun hdet => ?_⟩
  have hdet2 : mat 0 0 * mat 1 1 - mat 0 1 * mat 1 0 = 1 := by
    rw [← Matrix.det_fin_two]
    exact hdet
  have harg : sqrtArg mat = (4 - (mat 0 0 + mat 1 1) ^ 2) / 4 := by
    simp only [sqrtArg]
    linear_combination hdet2
  constructor
  · intro htr
    obtain ⟨h1, h2⟩ := abs_lt.mp htr
    have hpos : ¬ sqrtArg mat < 0 := by
      rw [harg]
      nlinarith
    simp [twiss22, hpos]
  · intro htr
    rw [hiff, harg]
    rcases lt_abs.mp htr with h | h <;> nlinarith

/-- Witness for the amended C4 at a concrete determinant-1 stable block. -/
theorem C4_twiss22_domain_witness :
    (twiss22 !![(1 : ℝ)/2, 1/2; -(3/2), 1/2] [] = none ↔
      sqrtArg !![(1 : ℝ)/2, 1/2; -(3/2), 1/2] < 0) ∧
    (twiss22 !![(1 : ℝ)/2, 1/2; -(3/2), 1/2] []).isSome :=
  ⟨(C4_twiss22_domain !![(1 : ℝ)/2, 1/2; -(3/2), 1/2] []).1,
    ((C4_twiss22_domain !![(1 : ℝ)/2, 1/2; -(3/2), 1/2] []).2
        (by norm_num [Matrix.det_fin_two])).1
      (by norm_num [abs_lt])⟩

/-- The initial loop iterate is the embedded zero orbit at the requested
momentum deviation. -/
lemma initOrbitState_embed (dp : ℝ) :
    (initOrbitState dp).r = embed6 (fun _ => 0) dp := by
  funext m
  simp only [initOrbitState, embed6]
  by_cases h4 : m.val < 4
  · have : ¬ m.val = 4 := by omega
    simp [h4, this]
  · by_cases h5 : m.val = 4 <;> simp [h4, h5]

/-- The transverse part of the initial loop iterate is zero. -/
lemma init_first4 (dp : ℝ) : first4 (initOrbitState dp).r = fun _ => 0 := by
  rw [initOrbitState_embed, first4_embed6]

/-- A block-diagonal transverse map with no momentum coupling fixes the
transverse origin at every momentum deviation. -/
lemma blk6_track_init (X Y : M2) (dp : ℝ) :
    first4 (affineTrack (blk6 X Y) (fun _ => 0) (initOrbitState dp).r) = fun _ => 0 := by
  funext i
  show affineTrack (blk6 X Y) (fun _ => 0) (initOrbitState dp).r (emb46 i) = 0
  rw [initOrbitState_embed, affineTrack_emb]
  have hoff : affineOffset (blk6 X Y) (fun _ => 0) dp i = 0 := by
    have hz : blk6 X Y (emb46 i) 4 = 0 := by
      fin_cases i <;> simp [blk6, show emb46 0 = (0 : Fin 6) from rfl,
        show emb46 1 = (1 : Fin 6) from rfl, show emb46 2 = (2 : Fin 6) from rfl,
        show emb46 3 = (3 : Fin 6) from rfl]
    simp [affineOffset, hz]
  rw [hoff]
  simp

/-- The orbit solver on an uncoupled block-diagonal ring returns the zero
closed orbit and zero orbit at every reference point. -/
lemma findOrbit4_blk6 (ring : ARing) (X Y : M2)
    (hT : ∀ k, ring.trackTo k = affineTrack (blk6 X Y) (fun _ => 0))
    (dp : ℝ) (rp : List ℕ) :
    findOrbit4 ring dp rp = (fun _ => 0, rp.map fun _ => fun _ => 0) := by
  have hfix : first4 (ring.trackTo ring.len (initOrbitState dp).r) =
      first4 (initOrbitState dp).r := by
    rw [hT, blk6_track_init, init_first4]
  rw [findOrbit4_fixed ring dp rp hfix, init_first4]
  congr 1
  refine List.map_congr_left fun k _ => ?_
  rw [hT, blk6_track_init]

/-- The x-plane sub-block of the uncoupled 4 x 4 block is the x block. -/
lemma xblk_blk4_blk6 (X Y : M2) : xblk (blk4 (blk6 X Y)) = X := by
  rw [blk4_blk6]
  ext i j
  fin_cases i <;> fin_cases j <;> simp [xblk]

/-- The y-plane sub-block of the uncoupled 4 x 4 block is the y block. -/
lemma yblk_blk4_blk6 (X Y : M2) : yblk (blk4 (blk6 X Y)) = Y := by
  rw [blk4_blk6]
  ext i j
  fin_cases i <;> fin_cases j <;> simp [yblk]

/-- Unwrapping a single raw phase value changes nothing. -/
lemma unwrap_singleton (x : ℝ) : betatron_phase_unwrap [x] = [x] := by
  rw [unwrap_eq]
  simp [jlist]

/-- A stable 2 x 2 one-turn block with rational entries: determinant 1/2,
trace 1, square-root argument 1/4. -/
noncomputable def B2 : M2 := !![1/2, 1/2; -(1/2), 1/2]

/-- A one-element ring tracked by the uncoupled linear map with block `B2`
in both transverse planes. -/
noncomputable def ringB : ARing :=
  { len := 1
    trackTo := fun _ => affineTrack (blk6 B2 B2) (fun _ => 0)
    sPos := fun _ => 0 }

/-- The square root of one quarter. -/
lemma sqrt_quarter : Real.sqrt (1 / 4) = 1 / 2 := by
  rw [show (1 / 4 : ℝ) = (1 / 2) ^ 2 by norm_num, Real.sqrt_sq (by norm_num : (0 : ℝ) ≤ 1 / 2)]

/-- Full evaluation of the Twiss decomposition of the block `B2` against
the single segment matrix `B2`. -/
lemma twiss22_B2 : twiss22 B2 [B2] = some ([0], [1 / 2], [Real.pi / 4]) := by
  have harg : sqrtArg B2 = 1 / 4 := by
    norm_num [sqrtArg, B2]
  have hnot : ¬ sqrtArg B2 < 0 := by rw [harg]; norm_num
  simp only [twiss22, hnot, if_false, harg]
  have hB01 : B2 0 1 = 1 / 2 := by norm_num [B2]
  have hB00 : B2 0 0 = 1 / 2 := by norm_num [B2]
  have hB10 : B2 1 0 = -(1 / 2) := by norm_num [B2]
  have hB11 : B2 1 1 = 1 / 2 := by norm_num [B2]
  have hsin : Real.sign (B2 0 1) * Real.sqrt (1 / 4) = 1 / 2 := by
    rw [hB01, Real.sign_of_pos (by norm_num : (0 : ℝ) < 1 / 2), sqrt_quarter]
    norm_num
  rw [hsin]
  simp only [List.map_cons, List.map_nil, hB00, hB01, hB10, hB11]
  norm_num
  exact unwrap_singleton _

/-- The optics record produced at the single reference point of `ringB`. -/
noncomputable def recB : TwissRec :=
  { idx := 1
    s_pos := 0
    closed_orbit := fun _ => 0
    dispersion := none
    alpha := ![0, 0]
    beta := ![1 / 2, 1 / 2]
    mu := ![Real.pi / 4, Real.pi / 4]
    m44 := blk4 (blk6 B2 B2) }

/-- The tune reported for `ringB`. -/
noncomputable def tuneB : Fin 2 → ℝ :=
  ![Real.pi / 4 / (2 * Real.pi), Real.pi / 4 / (2 * Real.pi)]

/-- Full evaluation of the chromaticity-free optics computation on `ringB`,
uniformly in the momentum deviation. -/
lemma getTwissCore_ringB (dp : ℝ) :
    getTwissCore ringB dp [1] = some ([recB], tuneB) := by
  have hT : ∀ k, ringB.trackTo k = affineTrack (blk6 B2 B2) (fun _ => 0) := fun _ => rfl
  have horb : findOrbit4 ringB dp [1] = (fun _ => 0, [fun _ => 0]) := by
    rw [findOrbit4_blk6 ringB B2 B2 hT dp [1]]
    rfl
  have hm : m44At ringB (fun _ => 0) dp XYDEFSTEP 1 = blk4 (blk6 B2 B2) := by
    have := m44At_affine ringB (blk6 B2 B2) (fun _ => 0) 1 (hT 1) (fun _ => 0) dp
      XYDEFSTEP (by norm_num [XYDEFSTEP])
    exact this
  have hM44 : findM44 ringB dp (some [1]) (some (fun _ => 0)) XYDEFSTEP =
      some (blk4 (blk6 B2 B2), [blk4 (blk6 B2 B2)], [1]) := by
    rw [findM44_last ringB dp XYDEFSTEP (fun _ => 0) [1] (by simp)
      (show ([1] : List ℕ).getLast! = ringB.len from rfl)]
    show some (m44At ringB (fun _ => 0) dp XYDEFSTEP ringB.len,
      [m44At ringB (fun _ => 0) dp XYDEFSTEP 1], [1]) = _
    rw [show ringB.len = 1 from rfl, hm]
  show getTwissCore ringB dp [1] = some ([recB], tuneB)
  simp only [getTwissCore, uint32_refpts]
  rw [show (if ([1] : List ℕ).getLast! ≠ ringB.len then [1] ++ [ringB.len] else [1]) = [1]
    by simp [show ([1] : List ℕ).getLast! = 1 from rfl, show ringB.len = 1 from rfl]]
  rw [horb]
  simp only []
  rw [hM44]
  simp only [List.map_cons, List.map_nil, xblk_blk4_blk6, yblk_blk4_blk6, twiss22_B2]
  simp only [List.length_cons, List.length_nil, show List.range 1 = [0] from rfl,
    List.map_cons, List.map_nil]
  congr 1

/-- `get_twiss` with the chromaticity flag off is the chromaticity-free
body with no chromaticity output. -/
lemma getTwiss_false_eq (ring : ARing) (dp ddp : ℝ) (rp : List ℕ) :
    getTwiss ring dp rp false ddp =
      (getTwissCore ring dp rp).map (fun p => (p.1, p.2, none)) := by
  unfold getTwiss
  cases h : getTwissCore ring dp rp with
  | none => rfl
  | some p =>
    cases p with
    | mk tw tune => simp

/-- Every record assembled by the chromaticity-free body has its dispersion
field unset (NaN in the source). -/
lemma getTwissCore_dispersion_none (ring : ARing) (dp : ℝ) (rp : List ℕ)
    (tw : List TwissRec) (tune : Fin 2 → ℝ)
    (h : getTwissCore ring dp rp = some (tw, tune)) :
    ∀ r ∈ tw, r.dispersion = none := by
  intro r hr
  simp only [getTwissCore] at h
  split at h
  · exact absurd h (by simp)
  · split at h
    · exact absurd h (by simp)
    · split at h
      · exact absurd h (by simp)
      · split at h
        · exact absurd h (by simp)
        · simp only [Option.some.injEq, Prod.mk.injEq] at h
          obtain ⟨h1, -⟩ := h
          subst h1
          obtain ⟨k, -, rfl⟩ := List.mem_map.mp hr
          rfl

/-- C8: with the chromaticity flag off, `get_twiss` returns no chromaticity
and every record's dispersion unset (NaN, modelled `none`); with the flag
on, it makes exactly one nested invocation of the same computation at
`dp + ddp` with the flag at its default off value (hence no deeper
recursion), and returns chromaticity `(tuneb - tune)/ddp` and per-record
dispersion `(orbitb - orbit)/ddp` componentwise, leaving tune and all other
record fields those of the base computation. -/
theorem C8_chromaticity (ring : ARing) (dp ddp : ℝ) (rp : List ℕ) :
    (∀ out, getTwiss ring dp rp false ddp = some out →
      out.2.2 = none ∧ ∀ r ∈ out.1, r.dispersion = none) ∧
    (∀ (tw twb : List TwissRec) (tune tuneb : Fin 2 → ℝ),
      getTwiss ring dp rp false ddp = some (tw, tune, none) →
      getTwiss ring (dp + ddp) rp false ddp = some (twb, tuneb, none) →
      getTwiss ring dp rp true ddp =
        some (List.zipWith (fun a b =>
            { a with
              dispersion := some (fun i => (b.closed_orbit i - a.closed_orbit i) / ddp) })
            tw twb,
          tune, some (fun i => (tuneb i - tune i) / ddp))) := by
  constructor
  · intro out hout
    rw [getTwiss_false_eq] at hout
    cases hcore : getTwissCore ring dp rp with
    | none => rw [hcore] at hout; exact absurd hout (by simp)
    | some p =>
      rw [hcore] at hout
      simp only [Option.map_some', Option.some.injEq] at hout
      subst hout
      exact ⟨rfl, getTwissCore_dispersion_none ring dp rp p.1 p.2 (by rw [hcore])⟩
  · intro tw twb tune tuneb h1 h2
    rw [getTwiss_false_eq] at h1 h2
    have hc1 : getTwissCore ring dp rp = some (tw, tune) := by
      cases hcore : getTwissCore ring dp rp with
      | none => rw [hcore] at h1; exact absurd h1 (by simp)
      | some p =>
        rw [hcore] at h1
        simp only [Option.map_some', Option.some.injEq, Prod.mk.injEq] at h1
        exact congrArg some (Prod.ext h1.1 h1.2.1)
    have hc2 : getTwissCore ring (dp + ddp) rp = some (twb, tuneb) := by
      cases hcore : getTwissCore ring (dp + ddp) rp with
      | none => rw [hcore] at h2; exact absurd h2 (by simp)
      | some p =>
        rw [hcore] at h2
        simp only [Option.map_some', Option.some.injEq, Prod.mk.injEq] at h2
        exact congrArg some (Prod.ext h2.1 h2.2.1)
    unfold getTwiss
    rw [hc1, hc2]
    simp

/-- Witness for C8 on `ringB`, whose optics are momentum-independent: the
chromaticity and dispersion evaluate through the two nested computations. -/
theorem C8_chromaticity_witness :
    getTwiss ringB 0 [1] true DDP =
      some (List.zipWith (fun a b =>
          { a with
            dispersion := some (fun i => (b.closed_orbit i - a.closed_orbit i) / DDP) })
          [recB] [recB],
        tuneB, some (fun i => (tuneB i - tuneB i) / DDP)) :=
  (C8_chromaticity ringB 0 DDP [1]).2 [recB] [recB] tuneB tuneB
    (by rw [getTwiss_false_eq, getTwissCore_ringB]; rfl)
    (by rw [getTwiss_false_eq, getTwissCore_ringB]; rfl)

/-- Indexing with a default inside the range produces a member. -/
lemma getD_mem_of_lt {α : Type} (l : List α) (k : ℕ) (d : α) (h : k < l.length) :
    l.getD k d ∈ l := by
  rw [List.getD_eq_getElem?_getD, List.getElem?_eq_getElem h]
  exact List.getElem_mem h

/-- The unwrapped sequence has the length of its input. -/
lemma unwrap_length (l : List ℝ) : (betatron_phase_unwrap l).length = l.length := by
  cases l with
  | nil => rfl
  | cons a t =>
    simp only [betatron_phase_unwrap, List.length_zipWith, List.length_tail,
      List.length_scanl, List.length_map, List.length_cons]
    omega

/-- Positivity of every transported beta value out of `twiss22` when the
square-root argument of the one-turn block is strictly positive and every
segment block has a nonzero first row. -/
lemma twiss22_beta_pos (mat : M2) (ms : List M2)
    (harg : 0 < sqrtArg mat)
    (hrow : ∀ m ∈ ms, m 0 0 ≠ 0 ∨ m 0 1 ≠ 0) :
    ∃ al bl ml, twiss22 mat ms = some (al, bl, ml) ∧
      bl.length = ms.length ∧ al.length = ms.length ∧ ml.length = ms.length ∧
      ∀ b ∈ bl, 0 < b := by
  have hnot : ¬ sqrtArg mat < 0 := not_lt.mpr harg.le
  have hM01 : mat 0 1 ≠ 0 := by
    intro h0
    have : sqrtArg mat ≤ 0 := by
      simp only [sqrtArg, h0]
      nlinarith [sq_nonneg (mat 0 0 - mat 1 1)]
    linarith
  have hsqrt : 0 < Real.sqrt (sqrtArg mat) := Real.sqrt_pos.mpr harg
  have hbeta0 : 0 < mat 0 1 / (Real.sign (mat 0 1) * Real.sqrt (sqrtArg mat)) := by
    rcases lt_or_gt_of_ne hM01 with hneg | hpos
    · rw [Real.sign_of_neg hneg]
      apply div_pos_of_neg_of_neg hneg
      nlinarith
    · rw [Real.sign_of_pos hpos]
      apply div_pos hpos
      nlinarith
  simp only [twiss22, hnot, if_false]
  refine ⟨_, _, _, rfl, by simp, by simp, by rw [unwrap_length]; simp, ?_⟩
  intro b hb
  obtain ⟨m, hm, rfl⟩ := List.mem_map.mp hb
  set beta0 := mat 0 1 / (Real.sign (mat 0 1) * Real.sqrt (sqrtArg mat)) with hbdef
  set alpha0 := (mat 0 0 - mat 1 1) / 2 / (Real.sign (mat 0 1) * Real.sqrt (sqrtArg mat))
    with hadef
  have hnum : 0 < (m 0 0 * beta0 - m 0 1 * alpha0) ^ 2 + (m 0 1) ^ 2 := by
    rcases hrow m hm with h00 | h01
    · by_cases h01z : m 0 1 = 0
      · have hN : m 0 0 * beta0 - m 0 1 * alpha0 = m 0 0 * beta0 := by
          rw [h01z]; ring
        rw [hN, h01z]
        have hnz : m 0 0 * beta0 ≠ 0 := mul_ne_zero h00 (ne_of_gt hbeta0)
        nlinarith [sq_pos_of_ne_zero hnz]
      · nlinarith [sq_nonneg (m 0 0 * beta0 - m 0 1 * alpha0), sq_pos_of_ne_zero h01z]
    · nlinarith [sq_nonneg (m 0 0 * beta0 - m 0 1 * alpha0), sq_pos_of_ne_zero h01]
  exact div_pos hnum hbeta0

/-- C9 (amended): the claimed stability condition (trace magnitude below 2,
nonzero M01 of the one-turn blocks) neither forces the square-root argument
of the Twiss decomposition to be positive nor constrains the per-point
segment matrices, and a degenerate segment matrix yields beta = 0.  Under
the conditions the computation actually needs — strictly positive
square-root argument in both planes (which trace magnitude below 2 and
nonzero M01 do imply for determinant-1 blocks) and a nonzero first row of
every per-point 2 x 2 segment block — `get_twiss` succeeds and every beta
it reports, at every reference point and in both planes, is strictly
positive. -/
theorem C9_beta_positive_amended (ring : ARing) (dp : ℝ) (rp : List ℕ)
    (hne : rp ≠ [])
    (hx : 0 < sqrtArg (xblk (m44At ring
      (findOrbit4 ring dp (if rp.getLast! ≠ ring.len then rp ++ [ring.len] else rp)).1
      dp XYDEFSTEP ring.len)))
    (hy : 0 < sqrtArg (yblk (m44At ring
      (findOrbit4 ring dp (if rp.getLast! ≠ ring.len then rp ++ [ring.len] else rp)).1
      dp XYDEFSTEP ring.len)))
    (hrows : ∀ k ∈ (if rp.getLast! ≠ ring.len then rp ++ [ring.len] else rp),
      ((xblk (m44At ring
          (findOrbit4 ring dp (if rp.getLast! ≠ ring.len then rp ++ [ring.len] else rp)).1
          dp XYDEFSTEP k) 0 0 ≠ 0 ∨
        xblk (m44At ring
          (findOrbit4 ring dp (if rp.getLast! ≠ ring.len then rp ++ [ring.len] else rp)).1
          dp XYDEFSTEP k) 0 1 ≠ 0) ∧
       (yblk (m44At ring
          (findOrbit4 ring dp (if rp.getLast! ≠ ring.len then rp ++ [ring.len] else rp)).1
          dp XYDEFSTEP k) 0 0 ≠ 0 ∨
        yblk (m44At ring
          (findOrbit4 ring dp (if rp.getLast! ≠ ring.len then rp ++ [ring.len] else rp)).1
          dp XYDEFSTEP k) 0 1 ≠ 0))) :
    ∃ tw tune, getTwissCore ring dp rp = some (tw, tune) ∧
      ∀ r ∈ tw, 0 < r.beta 0 ∧ 0 < r.beta 1 := by
  obtain ⟨r0, rtl, rfl⟩ : ∃ r0 rtl, rp = r0 :: rtl := by
    cases rp with
    | nil => exact absurd rfl hne
    | cons r0 rtl => exact ⟨r0, rtl, rfl⟩
  set rl : List ℕ := r0 :: rtl with hrl
  set rpn : List ℕ := if rl.getLast! ≠ ring.len then rl ++ [ring.len] else rl with hrpn
  set o4 : V4 := (findOrbit4 ring dp rpn).1 with ho4
  set F : ℕ → M4 := m44At ring o4 dp XYDEFSTEP with hF
  have hrpn_ne : rpn ≠ [] := by
    rw [hrpn]
    by_cases h : rl.getLast! ≠ ring.len <;> simp [h, hrl]
  have hrpn_last : rpn.getLast! = ring.len := by
    rw [hrpn]
    by_cases h : rl.getLast! ≠ ring.len
    · rw [if_pos h]
      exact getLastBang_concat rl ring.len
    · rw [if_neg h]
      exact not_not.mp (by simpa using h)
  have hM : findM44 ring dp (some rpn) (some o4) XYDEFSTEP =
      some (F ring.len, rpn.map F, rpn) := by
    rw [findM44_last ring dp XYDEFSTEP o4 rpn hrpn_ne hrpn_last]
  have hrowsx : ∀ m ∈ (rpn.map F).map xblk, m 0 0 ≠ 0 ∨ m 0 1 ≠ 0 := by
    intro m hm
    rw [List.map_map] at hm
    obtain ⟨k, hk, rfl⟩ := List.mem_map.mp hm
    exact (hrows k hk).1
  have hrowsy : ∀ m ∈ (rpn.map F).map yblk, m 0 0 ≠ 0 ∨ m 0 1 ≠ 0 := by
    intro m hm
    rw [List.map_map] at hm
    obtain ⟨k, hk, rfl⟩ := List.mem_map.mp hm
    exact (hrows k hk).2
  obtain ⟨ax, bx, mx, hxeq, hbxlen, -, -, hbxpos⟩ :=
    twiss22_beta_pos (xblk (F ring.len)) ((rpn.map F).map xblk) hx hrowsx
  obtain ⟨ay, bny, my, hyeq, hbylen, -, -, hbypos⟩ :=
    twiss22_beta_pos (yblk (F ring.len)) ((rpn.map F).map yblk) hy hrowsy
  have hlen_rpn : rl.length ≤ rpn.length := by
    rw [hrpn]
    by_cases h : rl.getLast! ≠ ring.len <;> simp [h]
  have hcore : getTwissCore ring dp rl = some (
      (List.range rl.length).map (fun k =>
        { idx := rl.getD k 0
          s_pos := ring.sPos (rl.getD k 0)
          closed_orbit := (findOrbit4 ring dp rpn).2.getD k (fun _ => 0)
          dispersion := none
          alpha := ![ax.getD k 0, ay.getD k 0]
          beta := ![bx.getD k 0, bny.getD k 0]
          mu := ![mx.getD k 0, my.getD k 0]
          m44 := (rpn.map F).getD k 0 }),
      ![mx.getLast! / (2 * Real.pi), my.getLast! / (2 * Real.pi)]) := by
    simp only [getTwissCore, uint32_refpts, hrl]
    rw [← hrl, ← hrpn, ← ho4]
    show (match findM44 ring dp (some rpn) (some o4) XYDEFSTEP with
      | none => none
      | some (m44v, mstack, _) => _) = _
    rw [hM]
    show (match twiss22 (xblk (F ring.len)) ((rpn.map F).map xblk) with
      | none => none
      | some (ax2, bx2, mx2) => _) = _
    rw [hxeq]
    show (match twiss22 (yblk (F ring.len)) ((rpn.map F).map yblk) with
      | none => none
      | some (ay2, by2, my2) => _) = _
    rw [hyeq]
  refine ⟨_, _, hcore, ?_⟩
  intro r hr
  obtain ⟨k, hk, rfl⟩ := List.mem_map.mp hr
  have hklt : k < rl.length := List.mem_range.mp hk
  have hkx : k < bx.length := by
    rw [hbxlen, List.length_map, List.length_map]
    omega
  have hky : k < bny.length := by
    rw [hbylen, List.length_map, List.length_map]
    omega
  constructor
  · show 0 < ![bx.getD k 0, bny.getD k 0] 0
    simp only [Matrix.cons_val_zero]
    exact hbxpos _ (getD_mem_of_lt bx k 0 hkx)
  · show 0 < ![bx.getD k 0, bny.getD k 0] 1
    simp only [Matrix.cons_val_one, Matrix.head_cons]
    exact hbypos _ (getD_mem_of_lt bny k 0 hky)

/-- Witness for the amended C9 at the concrete stable ring `ringB`. -/
theorem C9_beta_positive_amended_witness :
    ∃ tw tune, getTwissCore ringB 0 [1] = some (tw, tune) ∧
      ∀ r ∈ tw, 0 < r.beta 0 ∧ 0 < r.beta 1 := by
  have hif : (if ([1] : List ℕ).getLast! ≠ ringB.len then [1] ++ [ringB.len] else [1]) = [1] := by
    simp [show ([1] : List ℕ).getLast! = 1 from rfl, show ringB.len = 1 from rfl]
  have hT : ∀ k, ringB.trackTo k = affineTrack (blk6 B2 B2) (fun _ => 0) := fun _ => rfl
  have horb : (findOrbit4 ringB 0 [1]).1 = fun _ => 0 := by
    rw [findOrbit4_blk6 ringB B2 B2 hT 0 [1]]
  have hm : ∀ k, m44At ringB (findOrbit4 ringB 0 [1]).1 0 XYDEFSTEP k = blk4 (blk6 B2 B2) := by
    intro k
    rw [horb]
    exact m44At_affine ringB (blk6 B2 B2) (fun _ => 0) k (hT k) (fun _ => 0) 0
      XYDEFSTEP (by norm_num [XYDEFSTEP])
  refine C9_beta_positive_amended ringB 0 [1] (by simp) ?_ ?_ ?_
  · rw [hif, hm, xblk_blk4_blk6]
    norm_num [sqrtArg, B2]
  · rw [hif, hm, yblk_blk4_blk6]
    norm_num [sqrtArg, B2]
  · intro k hk
    rw [hif] at hk
    simp only [List.mem_singleton] at hk
    subst hk
    rw [hif, hm, xblk_blk4_blk6, yblk_blk4_blk6]
    norm_num [B2]

/-- A two-element ring: the tracked map to the first reference point is the
degenerate zero map, while the full turn is the stable uncoupled `B2` map. -/
noncomputable def ring9 : ARing :=
  { len := 2
    trackTo := fun k =>
      if k = 1 then affineTrack 0 (fun _ => 0)
      else affineTrack (blk6 B2 B2) (fun _ => 0)
    sPos := fun _ => 0 }

/-- Transverse block of the zero map. -/
lemma blk4_zero : blk4 (0 : Matrix (Fin 6) (Fin 6) ℝ) = 0 := by
  ext i j
  simp [blk4]

/-- x sub-block of the zero matrix. -/
lemma xblk_zero : xblk (0 : M4) = 0 := by
  ext i j
  simp [xblk]

/-- y sub-block of the zero matrix. -/
lemma yblk_zero : yblk (0 : M4) = 0 := by
  ext i j
  simp [yblk]

/-- Unwrapping a non-decreasing pair changes nothing. -/
lemma unwrap_pair_mono (x y : ℝ) (h : x ≤ y) :
    betatron_phase_unwrap [x, y] = [x, y] := by
  rw [unwrap_eq]
  have hj : jIndicator (y - x) = 0 := by
    simp only [jIndicator, if_neg (by linarith : ¬ y - x < 0)]
  simp [jlist, hj, List.scanl_cons]

/-- Twiss transport of the stable block `B2` across a degenerate zero
segment matrix followed by the one-turn matrix itself. -/
lemma twiss22_B2_degenerate :
    twiss22 B2 [0, B2] = some ([0, 0], [0, 1 / 2], [0, Real.pi / 4]) := by
  have harg : sqrtArg B2 = 1 / 4 := by norm_num [sqrtArg, B2]
  have hnot : ¬ sqrtArg B2 < 0 := by rw [harg]; norm_num
  simp only [twiss22, hnot, if_false, harg]
  have hB01 : B2 0 1 = 1 / 2 := by norm_num [B2]
  have hB00 : B2 0 0 = 1 / 2 := by norm_num [B2]
  have hB10 : B2 1 0 = -(1 / 2) := by norm_num [B2]
  have hB11 : B2 1 1 = 1 / 2 := by norm_num [B2]
  have hsin : Real.sign (B2 0 1) * Real.sqrt (1 / 4) = 1 / 2 := by
    rw [hB01, Real.sign_of_pos (by norm_num : (0 : ℝ) < 1 / 2), sqrt_quarter]
    norm_num
  rw [hsin]
  simp only [List.map_cons, List.map_nil, hB00, hB01, hB10, hB11, Matrix.zero_apply]
  norm_num
  rw [unwrap_pair_mono 0 (Real.pi / 4) (by positivity)]

/-- Full evaluation of the chromaticity-free optics computation on the
degenerate-segment ring. -/
lemma getTwissCore_ring9 :
    getTwissCore ring9 0 [1, 2] = some (
      [{ idx := 1, s_pos := 0, closed_orbit := fun _ => 0, dispersion := none,
         alpha := ![0, 0], beta := ![0, 0], mu := ![0, 0], m44 := 0 },
       { idx := 2, s_pos := 0, closed_orbit := fun _ => 0, dispersion := none,
         alpha := ![0, 0], beta := ![1 / 2, 1 / 2], mu := ![Real.pi / 4, Real.pi / 4],
         m44 := blk4 (blk6 B2 B2) }],
      ![Real.pi / 4 / (2 * Real.pi), Real.pi / 4 / (2 * Real.pi)]) := by
  have hT2 : ring9.trackTo ring9.len = affineTrack (blk6 B2 B2) (fun _ => 0) := rfl
  have hT1 : ring9.trackTo 1 = affineTrack 0 (fun _ => 0) := rfl
  have hfix : first4 (ring9.trackTo ring9.len (initOrbitState 0).r) =
      first4 (initOrbitState 0).r := by
    rw [hT2, blk6_track_init, init_first4]
  have htrack1 : first4 (ring9.trackTo 1 (initOrbitState 0).r) = fun _ => 0 := by
    rw [hT1]
    funext i
    simp [affineTrack, first4, Matrix.zero_mulVec]
  have horb : findOrbit4 ring9 0 [1, 2] = (fun _ => 0, [fun _ => 0, fun _ => 0]) := by
    rw [findOrbit4_fixed ring9 0 [1, 2] hfix, init_first4]
    congr 1
    simp only [List.map_cons, List.map_nil]
    rw [htrack1]
    have : first4 (ring9.trackTo 2 (initOrbitState 0).r) = fun _ => 0 := by
      rw [show ring9.trackTo 2 = affineTrack (blk6 B2 B2) (fun _ => 0) from rfl,
        blk6_track_init]
    rw [this]
  have hm1 : m44At ring9 (fun _ => 0) 0 XYDEFSTEP 1 = 0 := by
    rw [m44At_affine ring9 0 (fun _ => 0) 1 hT1 (fun _ => 0) 0 XYDEFSTEP
      (by norm_num [XYDEFSTEP]), blk4_zero]
  have hm2 : m44At ring9 (fun _ => 0) 0 XYDEFSTEP 2 = blk4 (blk6 B2 B2) :=
    m44At_affine ring9 (blk6 B2 B2) (fun _ => 0) 2 rfl (fun _ => 0) 0 XYDEFSTEP
      (by norm_num [XYDEFSTEP])
  have hM44 : findM44 ring9 0 (some [1, 2]) (some (fun _ => 0)) XYDEFSTEP =
      some (blk4 (blk6 B2 B2), [0, blk4 (blk6 B2 B2)], [1, 2]) := by
    rw [findM44_last ring9 0 XYDEFSTEP (fun _ => 0) [1, 2] (by simp)
      (show ([1, 2] : List ℕ).getLast! = ring9.len from rfl)]
    show some (m44At ring9 (fun _ => 0) 0 XYDEFSTEP ring9.len,
      [m44At ring9 (fun _ => 0) 0 XYDEFSTEP 1, m44At ring9 (fun _ => 0) 0 XYDEFSTEP 2],
      [1, 2]) = _
    rw [show ring9.len = 2 from rfl, hm1, hm2]
  show getTwissCore ring9 0 [1, 2] = _
  simp only [getTwissCore, uint32_refpts]
  rw [show (if ([1, 2] : List ℕ).getLast! ≠ ring9.len then [1, 2] ++ [ring9.len]
      else [1, 2]) = [1, 2]
    by simp [show ([1, 2] : List ℕ).getLast! = 2 from rfl, show ring9.len = 2 from rfl]]
  rw [horb]
  simp only []
  rw [hM44]
  simp only [List.map_cons, List.map_nil, xblk_blk4_blk6, yblk_blk4_blk6, xblk_zero,
    yblk_zero, twiss22_B2_degenerate]
  simp only [List.length_cons, List.length_nil, show List.range 2 = [0, 1] from rfl,
    List.map_cons, List.map_nil]
  congr 1

/-- C9 is false as stated: `ring9` satisfies the claimed stability
hypothesis — both transverse one-turn 2 x 2 blocks have trace magnitude 1,
below 2, and nonzero M01 — yet the beta value `get_twiss` computes at its
first reference point is 0, not strictly positive, because the degenerate
segment matrix there has a zero first row. -/
theorem C9_counterexample :
    (∃ st, findM44 ring9 0 (some [1, 2]) (some (fun _ => 0)) XYDEFSTEP = some st ∧
      |xblk st.1 0 0 + xblk st.1 1 1| < 2 ∧ xblk st.1 0 1 ≠ 0 ∧
      |yblk st.1 0 0 + yblk st.1 1 1| < 2 ∧ yblk st.1 0 1 ≠ 0) ∧
    ((getTwiss ring9 0 [1, 2] false DDP).bind
      fun out => out.1.head?.map fun r => r.beta 0) = some 0 ∧
    ¬ (0 : ℝ) < 0 := by
  have hM44 : findM44 ring9 0 (some [1, 2]) (some (fun _ => 0)) XYDEFSTEP =
      some (blk4 (blk6 B2 B2), [0, blk4 (blk6 B2 B2)], [1, 2]) := by
    have hm1 : m44At ring9 (fun _ => 0) 0 XYDEFSTEP 1 = 0 := by
      rw [m44At_affine ring9 0 (fun _ => 0) 1 rfl (fun _ => 0) 0 XYDEFSTEP
        (by norm_num [XYDEFSTEP]), blk4_zero]
    have hm2 : m44At ring9 (fun _ => 0) 0 XYDEFSTEP 2 = blk4 (blk6 B2 B2) :=
      m44At_affine ring9 (blk6 B2 B2) (fun _ => 0) 2 rfl (fun _ => 0) 0 XYDEFSTEP
        (by norm_num [XYDEFSTEP])
    rw [findM44_last ring9 0 XYDEFSTEP (fun _ => 0) [1, 2] (by simp)
      (show ([1, 2] : List ℕ).getLast! = ring9.len from rfl)]
    show some (m44At ring9 (fun _ => 0) 0 XYDEFSTEP ring9.len,
      [m44At ring9 (fun _ => 0) 0 XYDEFSTEP 1, m44At ring9 (fun _ => 0) 0 XYDEFSTEP 2],
      [1, 2]) = _
    rw [show ring9.len = 2 from rfl, hm1, hm2]
  refine ⟨⟨(blk4 (blk6 B2 B2), [0, blk4 (blk6 B2 B2)], [1, 2]), hM44, ?_, ?_, ?_, ?_⟩,
    ?_, by norm_num⟩
  · rw [xblk_blk4_blk6]
    norm_num [B2, abs_lt]
  · rw [xblk_blk4_blk6]
    norm_num [B2]
  · rw [yblk_blk4_blk6]
    norm_num [B2, abs_lt]
  · rw [yblk_blk4_blk6]
    norm_num [B2]
  · rw [getTwiss_false_eq, getTwissCore_ring9]
    rfl

/-- A 2 x 2 block with trace 0 and nonzero off-diagonal whose square-root
argument is nevertheless negative (its determinant is -1, not 1). -/
noncomputable def S2 : M2 := !![0, 1; 1, 0]

/-- A one-element ring with the claim-stable but decomposition-fatal block
`S2` in the x plane and the benign block `B2` in the y plane. -/
noncomputable def ring4 : ARing :=
  { len := 1
    trackTo := fun _ => affineTrack (blk6 S2 B2) (fun _ => 0)
    sPos := fun _ => 0 }

/-- C4 is false as stated: the x-plane one-turn block of `ring4` has trace
magnitude 0, strictly below 2, and a nonzero M01, so the claim promises a
successful decomposition — but its square-root argument is -1, `math.sqrt`
raises, and `get_twiss` produces nothing at all. -/
theorem C4_counterexample :
    (∃ st, findM44 ring4 0 (some [1]) (some (fun _ => 0)) XYDEFSTEP = some st ∧
      |xblk st.1 0 0 + xblk st.1 1 1| < 2 ∧ xblk st.1 0 1 ≠ 0) ∧
    getTwiss ring4 0 [1] false DDP = none := by
  have hT : ∀ k, ring4.trackTo k = affineTrack (blk6 S2 B2) (fun _ => 0) := fun _ => rfl
  have hm : ∀ k, m44At ring4 (fun _ => 0) 0 XYDEFSTEP k = blk4 (blk6 S2 B2) := fun k =>
    m44At_affine ring4 (blk6 S2 B2) (fun _ => 0) k (hT k) (fun _ => 0) 0 XYDEFSTEP
      (by norm_num [XYDEFSTEP])
  have hM44 : findM44 ring4 0 (some [1]) (some (fun _ => 0)) XYDEFSTEP =
      some (blk4 (blk6 S2 B2), [blk4 (blk6 S2 B2)], [1]) := by
    rw [findM44_last ring4 0 XYDEFSTEP (fun _ => 0) [1] (by simp)
      (show ([1] : List ℕ).getLast! = ring4.len from rfl)]
    show some (m44At ring4 (fun _ => 0) 0 XYDEFSTEP ring4.len,
      [m44At ring4 (fun _ => 0) 0 XYDEFSTEP 1], [1]) = _
    rw [show ring4.len = 1 from rfl, hm]
  have htw : twiss22 S2 [S2] = none := by
    have harg : sqrtArg S2 < 0 := by norm_num [sqrtArg, S2]
    simp [twiss22, harg]
  have horb : findOrbit4 ring4 0 [1] = (fun _ => 0, [fun _ => 0]) := by
    rw [findOrbit4_blk6 ring4 S2 B2 hT 0 [1]]
    rfl
  constructor
  · refine ⟨(blk4 (blk6 S2 B2), [blk4 (blk6 S2 B2)], [1]), hM44, ?_, ?_⟩
    · rw [xblk_blk4_blk6]
      norm_num [S2, abs_lt]
    · rw [xblk_blk4_blk6]
      norm_num [S2]
  · rw [getTwiss_false_eq]
    have hcore : getTwissCore ring4 0 [1] = none := by
      simp only [getTwissCore, uint32_refpts]
      rw [show (if ([1] : List ℕ).getLast! ≠ ring4.len then [1] ++ [ring4.len] else [1]) = [1]
        by simp [show ([1] : List ℕ).getLast! = 1 from rfl, show ring4.len = 1 from rfl]]
      rw [horb]
      simp only []
      rw [hM44]
      simp only [List.map_cons, List.map_nil, xblk_blk4_blk6, yblk_blk4_blk6, htw]
    rw [hcore]
    rfl

/-- The companion block to `B2` whose phase ratio is -1. -/
noncomputable def N2 : M2 := !![1/2, -(1/2); 1/2, 1/2]

/-- x-plane block family of the jump ring: `N2` on the way to reference
points 2 and 4, `B2` elsewhere (in particular for the full turn). -/
noncomputable def X3fam (k : ℕ) : M2 := if k = 2 ∨ k = 4 then N2 else B2

/-- A five-element ring whose per-point x blocks alternate between `B2` and
`N2`, driving two negative raw phase steps, while the y plane stays at
`B2` throughout. -/
noncomputable def ring3 : ARing :=
  { len := 5
    trackTo := fun k => affineTrack (blk6 (X3fam k) B2) (fun _ => 0)
    sPos := fun _ => 0 }

/-- Unwrapping the alternating raw sequence of the jump ring accumulates pi
at each of the two negative steps. -/
lemma unwrap_ring3 :
    betatron_phase_unwrap
        [Real.pi/4, -(Real.pi/4), Real.pi/4, -(Real.pi/4), Real.pi/4] =
      [Real.pi/4, 3*Real.pi/4, 5*Real.pi/4, 7*Real.pi/4, 9*Real.pi/4] := by
  have hπ : (0 : ℝ) < Real.pi := Real.pi_pos
  have hneg : jIndicator (-(Real.pi/4) - Real.pi/4) = 1 := by
    simp only [jIndicator]
    rw [if_pos (by linarith)]
  have hpos : jIndicator (Real.pi/4 - -(Real.pi/4)) = 0 := by
    simp only [jIndicator]
    rw [if_neg (by push_neg; linarith)]
  rw [unwrap_eq]
  simp only [jlist, hneg, hpos, List.scanl_cons, List.scanl_nil, List.cons_append,
    List.nil_append, List.zipWith_cons_cons, List.zipWith_nil_right]
  norm_num
  refine ⟨by ring, by ring, by ring, by ring⟩

/-- Unwrapping the constant raw sequence of the y plane changes nothing. -/
lemma unwrap_const5 :
    betatron_phase_unwrap [Real.pi/4, Real.pi/4, Real.pi/4, Real.pi/4, Real.pi/4] =
      [Real.pi/4, Real.pi/4, Real.pi/4, Real.pi/4, Real.pi/4] := by
  have h0 : jIndicator (Real.pi/4 - Real.pi/4) = 0 := by
    simp only [jIndicator]
    rw [if_neg (by norm_num)]
  rw [unwrap_eq]
  simp only [jlist, h0, List.scanl_cons, List.scanl_nil, List.cons_append,
    List.nil_append, List.zipWith_cons_cons, List.zipWith_nil_right]
  norm_num

/-- Twiss transport of `B2` across the alternating block sequence: all
betas 1/2, all alphas 0, and an unwrapped phase that climbs to 9 pi / 4 at
the lattice end. -/
lemma twiss22_ring3_x :
    twiss22 B2 [B2, N2, B2, N2, B2] =
      some ([0, 0, 0, 0, 0], [1/2, 1/2, 1/2, 1/2, 1/2],
        [Real.pi/4, 3*Real.pi/4, 5*Real.pi/4, 7*Real.pi/4, 9*Real.pi/4]) := by
  have harg : sqrtArg B2 = 1 / 4 := by norm_num [sqrtArg, B2]
  have hnot : ¬ sqrtArg B2 < 0 := by rw [harg]; norm_num
  simp only [twiss22, hnot, if_false, harg]
  have hB01 : B2 0 1 = 1 / 2 := by norm_num [B2]
  have hB00 : B2 0 0 = 1 / 2 := by norm_num [B2]
  have hB10 : B2 1 0 = -(1 / 2) := by norm_num [B2]
  have hB11 : B2 1 1 = 1 / 2 := by norm_num [B2]
  have hN01 : N2 0 1 = -(1 / 2) := by norm_num [N2]
  have hN00 : N2 0 0 = 1 / 2 := by norm_num [N2]
  have hN10 : N2 1 0 = 1 / 2 := by norm_num [N2]
  have hN11 : N2 1 1 = 1 / 2 := by norm_num [N2]
  have hsin : Real.sign (B2 0 1) * Real.sqrt (1 / 4) = 1 / 2 := by
    rw [hB01, Real.sign_of_pos (by norm_num : (0 : ℝ) < 1 / 2), sqrt_quarter]
    norm_num
  rw [hsin]
  simp only [List.map_cons, List.map_nil, hB00, hB01, hB10, hB11, hN00, hN01, hN10, hN11]
  norm_num
  exact unwrap_ring3

/-- Twiss transport of `B2` across the constant block sequence of the y
plane. -/
lemma twiss22_ring3_y :
    twiss22 B2 [B2, B2, B2, B2, B2] =
      some ([0, 0, 0, 0, 0], [1/2, 1/2, 1/2, 1/2, 1/2],
        [Real.pi/4, Real.pi/4, Real.pi/4, Real.pi/4, Real.pi/4]) := by
  have harg : sqrtArg B2 = 1 / 4 := by norm_num [sqrtArg, B2]
  have hnot : ¬ sqrtArg B2 < 0 := by rw [harg]; norm_num
  simp only [twiss22, hnot, if_false, harg]
  have hB01 : B2 0 1 = 1 / 2 := by norm_num [B2]
  have hB00 : B2 0 0 = 1 / 2 := by norm_num [B2]
  have hB10 : B2 1 0 = -(1 / 2) := by norm_num [B2]
  have hB11 : B2 1 1 = 1 / 2 := by norm_num [B2]
  have hsin : Real.sign (B2 0 1) * Real.sqrt (1 / 4) = 1 / 2 := by
    rw [hB01, Real.sign_of_pos (by norm_num : (0 : ℝ) < 1 / 2), sqrt_quarter]
    norm_num
  rw [hsin]
  simp only [List.map_cons, List.map_nil, hB00, hB01, hB10, hB11]
  norm_num
  exact unwrap_const5

/-- Full evaluation of the chromaticity-free optics computation on the jump
ring: the reported x tune is 9/8, with no fractional-part reduction. -/
lemma getTwissCore_ring3 :
    getTwissCore ring3 0 [1, 2, 3, 4, 5] = some (
      [{ idx := 1, s_pos := 0, closed_orbit := fun _ => 0, dispersion := none,
         alpha := ![0, 0], beta := ![1/2, 1/2], mu := ![Real.pi/4, Real.pi/4],
         m44 := blk4 (blk6 B2 B2) },
       { idx := 2, s_pos := 0, closed_orbit := fun _ => 0, dispersion := none,
         alpha := ![0, 0], beta := ![1/2, 1/2], mu := ![3*Real.pi/4, Real.pi/4],
         m44 := blk4 (blk6 N2 B2) },
       { idx := 3, s_pos := 0, closed_orbit := fun _ => 0, dispersion := none,
         alpha := ![0, 0], beta := ![1/2, 1/2], mu := ![5*Real.pi/4, Real.pi/4],
         m44 := blk4 (blk6 B2 B2) },
       { idx := 4, s_pos := 0, closed_orbit := fun _ => 0, dispersion := none,
         alpha := ![0, 0], beta := ![1/2, 1/2], mu := ![7*Real.pi/4, Real.pi/4],
         m44 := blk4 (blk6 N2 B2) },
       { idx := 5, s_pos := 0, closed_orbit := fun _ => 0, dispersion := none,
         alpha := ![0, 0], beta := ![1/2, 1/2], mu := ![9*Real.pi/4, Real.pi/4],
         m44 := blk4 (blk6 B2 B2) }],
      ![9*Real.pi/4 / (2 * Real.pi), Real.pi/4 / (2 * Real.pi)]) := by
  have hT : ∀ k, ring3.trackTo k = affineTrack (blk6 (X3fam k) B2) (fun _ => 0) :=
    fun _ => rfl
  have hfix : first4 (ring3.trackTo ring3.len (initOrbitState 0).r) =
      first4 (initOrbitState 0).r := by
    rw [hT, blk6_track_init, init_first4]
  have htrk : ∀ k, first4 (ring3.trackTo k (initOrbitState 0).r) = fun _ => 0 := by
    intro k
    rw [hT, blk6_track_init]
  have horb : findOrbit4 ring3 0 [1, 2, 3, 4, 5] =
      (fun _ => 0, [fun _ => 0, fun _ => 0, fun _ => 0, fun _ => 0, fun _ => 0]) := by
    rw [findOrbit4_fixed ring3 0 [1, 2, 3, 4, 5] hfix, init_first4]
    congr 1
    simp only [List.map_cons, List.map_nil, htrk]
  have hm : ∀ k, m44At ring3 (fun _ => 0) 0 XYDEFSTEP k = blk4 (blk6 (X3fam k) B2) :=
    fun k => m44At_affine ring3 (blk6 (X3fam k) B2) (fun _ => 0) k (hT k) (fun _ => 0) 0
      XYDEFSTEP (by norm_num [XYDEFSTEP])
  have hX1 : X3fam 1 = B2 := rfl
  have hX2 : X3fam 2 = N2 := rfl
  have hX3 : X3fam 3 = B2 := rfl
  have hX4 : X3fam 4 = N2 := rfl
  have hX5 : X3fam 5 = B2 := rfl
  have hM44 : findM44 ring3 0 (some [1, 2, 3, 4, 5]) (some (fun _ => 0)) XYDEFSTEP =
      some (blk4 (blk6 B2 B2),
        [blk4 (blk6 B2 B2), blk4 (blk6 N2 B2), blk4 (blk6 B2 B2), blk4 (blk6 N2 B2),
          blk4 (blk6 B2 B2)], [1, 2, 3, 4, 5]) := by
    rw [findM44_last ring3 0 XYDEFSTEP (fun _ => 0) [1, 2, 3, 4, 5] (by simp)
      (show ([1, 2, 3, 4, 5] : List ℕ).getLast! = ring3.len from rfl)]
    show some (m44At ring3 (fun _ => 0) 0 XYDEFSTEP ring3.len,
      [m44At ring3 (fun _ => 0) 0 XYDEFSTEP 1, m44At ring3 (fun _ => 0) 0 XYDEFSTEP 2,
        m44At ring3 (fun _ => 0) 0 XYDEFSTEP 3, m44At ring3 (fun _ => 0) 0 XYDEFSTEP 4,
        m44At ring3 (fun _ => 0) 0 XYDEFSTEP 5], [1, 2, 3, 4, 5]) = _
    rw [show ring3.len = 5 from rfl]
    simp only [hm, hX1, hX2, hX3, hX4, hX5]
  show getTwissCore ring3 0 [1, 2, 3, 4, 5] = _
  simp only [getTwissCore, uint32_refpts]
  rw [show (if ([1, 2, 3, 4, 5] : List ℕ).getLast! ≠ ring3.len
      then [1, 2, 3, 4, 5] ++ [ring3.len] else [1, 2, 3, 4, 5]) = [1, 2, 3, 4, 5]
    by simp [show ([1, 2, 3, 4, 5] : List ℕ).getLast! = 5 from rfl,
      show ring3.len = 5 from rfl]]
  rw [horb]
  simp only []
  rw [hM44]
  simp only [List.map_cons, List.map_nil, xblk_blk4_blk6, yblk_blk4_blk6,
    twiss22_ring3_x, twiss22_ring3_y]
  simp only [List.length_cons, List.length_nil,
    show List.range 5 = [0, 1, 2, 3, 4] from rfl, List.map_cons, List.map_nil]
  congr 1

/-- C3: on the jump ring the returned x tune is 9/8, which is not the
fractional part of the total phase advance over 2 pi and does not lie in
the interval [0, 1): the source divides the final unwrapped phase by 2 pi
and takes no fractional part. -/
theorem C3_counterexample :
    (∃ st, findM44 ring3 0 (some [1, 2, 3, 4, 5]) (some (fun _ => 0)) XYDEFSTEP =
        some st ∧
      |xblk st.1 0 0 + xblk st.1 1 1| < 2 ∧ xblk st.1 0 1 ≠ 0 ∧
      |yblk st.1 0 0 + yblk st.1 1 1| < 2 ∧ yblk st.1 0 1 ≠ 0) ∧
    ((getTwiss ring3 0 [1, 2, 3, 4, 5] false DDP).map fun out => out.2.1 0) =
      some ((9 : ℝ) / 8) ∧
    Int.fract ((9 : ℝ) / 8) = 1 / 8 ∧
    ¬ ((9 : ℝ) / 8 < 1) ∧ ((9 : ℝ) / 8 ≠ 1 / 8) := by
  have hT : ∀ k, ring3.trackTo k = affineTrack (blk6 (X3fam k) B2) (fun _ => 0) :=
    fun _ => rfl
  have hm : ∀ k, m44At ring3 (fun _ => 0) 0 XYDEFSTEP k = blk4 (blk6 (X3fam k) B2) :=
    fun k => m44At_affine ring3 (blk6 (X3fam k) B2) (fun _ => 0) k (hT k) (fun _ => 0) 0
      XYDEFSTEP (by norm_num [XYDEFSTEP])
  have hM44 : findM44 ring3 0 (some [1, 2, 3, 4, 5]) (some (fun _ => 0)) XYDEFSTEP =
      some (blk4 (blk6 B2 B2),
        [blk4 (blk6 B2 B2), blk4 (blk6 N2 B2), blk4 (blk6 B2 B2), blk4 (blk6 N2 B2),
          blk4 (blk6 B2 B2)], [1, 2, 3, 4, 5]) := by
    rw [findM44_last ring3 0 XYDEFSTEP (fun _ => 0) [1, 2, 3, 4, 5] (by simp)
      (show ([1, 2, 3, 4, 5] : List ℕ).getLast! = ring3.len from rfl)]
    show some (m44At ring3 (fun _ => 0) 0 XYDEFSTEP ring3.len,
      [m44At ring3 (fun _ => 0) 0 XYDEFSTEP 1, m44At ring3 (fun _ => 0) 0 XYDEFSTEP 2,
        m44At ring3 (fun _ => 0) 0 XYDEFSTEP 3, m44At ring3 (fun _ => 0) 0 XYDEFSTEP 4,
        m44At ring3 (fun _ => 0) 0 XYDEFSTEP 5], [1, 2, 3, 4, 5]) = _
    rw [show ring3.len = 5 from rfl]
    simp only [hm, show X3fam 1 = B2 from rfl, show X3fam 2 = N2 from rfl,
      show X3fam 3 = B2 from rfl, show X3fam 4 = N2 from rfl,
      show X3fam 5 = B2 from rfl]
  refine ⟨⟨(blk4 (blk6 B2 B2),
      [blk4 (blk6 B2 B2), blk4 (blk6 N2 B2), blk4 (blk6 B2 B2), blk4 (blk6 N2 B2),
        blk4 (blk6 B2 B2)], [1, 2, 3, 4, 5]), hM44, ?_, ?_, ?_, ?_⟩, ?_, ?_, by norm_num,
    by norm_num⟩
  · rw [xblk_blk4_blk6]
    norm_num [B2, abs_lt]
  · rw [xblk_blk4_blk6]
    norm_num [B2]
  · rw [yblk_blk4_blk6]
    norm_num [B2, abs_lt]
  · rw [yblk_blk4_blk6]
    norm_num [B2]
  · rw [getTwiss_false_eq, getTwissCore_ring3]
    have hπ : 9 * Real.pi / 4 / (2 * Real.pi) = 9 / 8 := by
      have h := Real.pi_ne_zero
      field_simp
      ring
    simp only [Option.map_some']
    rw [show (![9 * Real.pi / 4 / (2 * Real.pi), Real.pi / 4 / (2 * Real.pi)] :
        Fin 2 → ℝ) 0 = 9 * Real.pi / 4 / (2 * Real.pi) from rfl, hπ]
  · have hf : ⌊(9 : ℝ) / 8⌋ = 1 := by
      rw [Int.floor_eq_iff]
      constructor <;> norm_num
    rw [Int.fract, hf]
    norm_num

/-- C3: amended tune claim. Whenever `get_twiss` returns, its tune vector
is exactly the last unwrapped phase advance of each transverse plane
divided by 2 pi, with no fractional-part reduction applied: the pipeline
normalises the reference points to end at the lattice, computes the
transfer matrices, transports the Twiss parameters through both planes,
and divides the final unwrapped phases by 2 pi. -/
theorem C3_tune_amended (ring : ARing) (dp ddp : ℝ) (rp : List ℕ)
    (tw : List TwissRec) (tune : Fin 2 → ℝ) (ch : Option (Fin 2 → ℝ))
    (h : getTwiss ring dp rp false ddp = some (tw, tune, ch)) :
    ∃ nrp m44v mstack rpo ax bx mx ay bY my,
      nrp = (if (uint32_refpts rp ring.len).getLast! ≠ ring.len
          then uint32_refpts rp ring.len ++ [ring.len]
          else uint32_refpts rp ring.len) ∧
      findM44 ring dp (some nrp) (some (findOrbit4 ring dp nrp).1) XYDEFSTEP
        = some (m44v, mstack, rpo) ∧
      twiss22 (xblk m44v) (List.map xblk mstack) = some (ax, bx, mx) ∧
      twiss22 (yblk m44v) (List.map yblk mstack) = some (ay, bY, my) ∧
      tune = ![List.getLast! mx / (2 * Real.pi), List.getLast! my / (2 * Real.pi)] := by
  rw [getTwiss_false_eq] at h
  cases hcore : getTwissCore ring dp rp with
  | none => rw [hcore] at h; exact absurd h (by simp)
  | some p =>
    rw [hcore] at h
    simp only [Option.map_some', Option.some.injEq, Prod.mk.injEq] at h
    obtain ⟨-, h2, -⟩ := h
    simp only [getTwissCore] at hcore
    split at hcore
    · exact absurd hcore (by simp)
    · rename_i r0 rtl heq
      split at hcore
      · exact absurd hcore (by simp)
      · rename_i m44v mstack rpo hM
        split at hcore
        · exact absurd hcore (by simp)
        · rename_i ax bx mx hx
          split at hcore
          · exact absurd hcore (by simp)
          · rename_i ay bY my hy
            simp only [Option.some.injEq] at hcore
            obtain rfl := hcore
            refine ⟨_, m44v, mstack, rpo, ax, bx, mx, ay, bY, my,
              by rw [heq], hM, hx, hy, ?_⟩
            rw [← h2]

/-- Concrete instantiation of the amended tune claim on the quarter-turn
ring. -/
theorem C3_tune_amended_witness :
    getTwiss ringB 0 [1] false DDP = some ([recB], tuneB, none) ∧
    (∃ nrp m44v mstack rpo ax bx mx ay bY my,
      nrp = (if (uint32_refpts [1] ringB.len).getLast! ≠ ringB.len
          then uint32_refpts [1] ringB.len ++ [ringB.len]
          else uint32_refpts [1] ringB.len) ∧
      findM44 ringB 0 (some nrp) (some (findOrbit4 ringB 0 nrp).1) XYDEFSTEP
        = some (m44v, mstack, rpo) ∧
      twiss22 (xblk m44v) (List.map xblk mstack) = some (ax, bx, mx) ∧
      twiss22 (yblk m44v) (List.map yblk mstack) = some (ay, bY, my) ∧
      tuneB = ![List.getLast! mx / (2 * Real.pi), List.getLast! my / (2 * Real.pi)]) :=
  ⟨by rw [getTwiss_false_eq, getTwissCore_ringB]; rfl,
   C3_tune_amended ringB 0 DDP [1] [recB] tuneB none
     (by rw [getTwiss_false_eq, getTwissCore_ringB]; rfl)⟩
